import Mathlib

/-!
# ZipBrute-GO: the password-search engine of `main.go`

A shallow embedding of the search engine (ZipCrypto pre-verification, index
decoding, range partitioning, the worker loop, the length sweep and the local
file header parser) followed by the properties proved about it.

Conventions of the embedding:

* a Go `byte`, `uint16`, `uint32` or `uint64` is a `Nat`; every operation that
  can leave the width of its type is followed by an explicit `%`;
* a Go `[]byte` is a `List Nat`;
* a run-time panic (index or slice out of range) is the outer `none` of an
  `Option`;
* in the sweep (`runWorkers`, `lengthSweep`) goroutines are run one after
  another, in launch order; the two interleaving models (`Sweep`, `StopState`)
  run them step by step under an arbitrary schedule.
-/

namespace ZipBrute

/-! ## ZipCrypto verifier -/

/-- Modelled from the spec: the eight shift-and-xor rounds that turn a byte into
its entry of the standard CRC-32 table for the reflected IEEE polynomial
`0xEDB88320` (the table `crc32.MakeTable(crc32.IEEE)` of the Go standard
library, which is not part of `main.go`). -/
def crcRounds : Nat → Nat → Nat
  | 0, crc => crc
  | j + 1, crc =>
    crcRounds j (if crc &&& 1 = 1 then (crc >>> 1) ^^^ 0xEDB88320 else crc >>> 1)

/-- Modelled from the spec: the 256-entry CRC-32 table of the IEEE polynomial
`0xEDB88320`, the value of `crc32.MakeTable(crc32.IEEE)` (Go standard library,
not part of `main.go`). -/
def crc32IEEETable : List Nat :=
  (List.range 256).map (crcRounds 8)

/-- The Go struct `ZipCryptoChecker`: the 12-byte encryption header, the CRC
table (`*crc32.Table`, 256 words) and the expected verification byte. -/
structure ZipCryptoChecker where
  encHeader : List Nat
  crc32Table : List Nat
  expectedByte : Nat
deriving DecidableEq, Repr

/-- The three key words `key0`, `key1`, `key2` of `checkPassword`. -/
structure Keys where
  key0 : Nat
  key1 : Nat
  key2 : Nat
deriving DecidableEq, Repr

/-- The three assignments shared by both loops of `checkPassword`, for the
byte `b` fed into `key0`:
`key0 = table[byte(key0)^b] ^ (key0 >> 8)`,
`key1 = (key1+(key0&0xff))*134775813 + 1` (in `uint32`: reducing once at the
end gives the same word as reducing after each operation),
`key2 = table[byte(key2)^byte(key1>>24)] ^ (key2 >> 8)`.
The index of `table` is a byte, so the access is always in range. -/
def keyStep (table : List Nat) (k : Keys) (b : Nat) : Keys :=
  let key0 := table.getD ((k.key0 % 256) ^^^ b) 0 ^^^ (k.key0 >>> 8)
  let key1 := ((k.key1 + (key0 &&& 0xff)) * 134775813 + 1) % 4294967296
  let key2 := table.getD ((k.key2 % 256) ^^^ ((key1 >>> 24) % 256)) 0 ^^^ (k.key2 >>> 8)
  { key0 := key0, key1 := key1, key2 := key2 }

/-- The expression `byte((temp*(temp^1))>>8)` with `temp := key2 | 2`, the
product taken in `uint32`. -/
def streamByte (key2 : Nat) : Nat :=
  let temp := key2 ||| 2
  (((temp * (temp ^^^ 1)) % 4294967296) >>> 8) % 256

/-- The keys after the first loop of `checkPassword` (`for i := range password`). -/
def passwordKeys (table : List Nat) (password : List Nat) : Keys :=
  password.foldl (keyStep table) { key0 := 305419896, key1 := 591751049, key2 := 878082192 }

/-- The keys after the second loop of `checkPassword` (`for i := range 11`):
each round decrypts `encHeader[i]` and feeds the result back into the keys. -/
def headerKeys (table : List Nat) (encHeader : List Nat) (k : Keys) : Keys :=
  (List.range 11).foldl
    (fun k i => keyStep table k (streamByte k.key2 ^^^ encHeader.getD i 0)) k

/-- The method `(*ZipCryptoChecker).checkPassword`. -/
def checkPassword (z : ZipCryptoChecker) (password : List Nat) : Bool :=
  let k := headerKeys z.crc32Table z.encHeader (passwordKeys z.crc32Table password)
  let c := streamByte k.key2 ^^^ z.encHeader.getD 11 0
  decide (c = z.expectedByte)

/-! ### The reference ZipCrypto decryption (written from the specification) -/

/-- Specification of `CRC32_step(s, x) = CRC_TABLE[(s ^ x) & 0xFF] ^ (s >> 8)`
for the IEEE table. -/
def specCrc32Step (s x : Nat) : Nat :=
  crc32IEEETable.getD ((s ^^^ x) &&& 0xFF) 0 ^^^ (s >>> 8)

/-- Specification of the key update on a byte `b`. -/
def specUpdate (k : Keys) (b : Nat) : Keys :=
  let k0 := specCrc32Step k.key0 b
  let k1 := ((k.key1 + (k0 &&& 0xFF)) * 0x08088405 + 1) % 2 ^ 32
  let k2 := specCrc32Step k.key2 ((k1 >>> 24) &&& 0xFF)
  { key0 := k0, key1 := k1, key2 := k2 }

/-- Specification of the keystream byte: `t = k2 | 2`,
`out = ((t * (t xor 1)) >> 8) & 0xFF`, the product being the integer product. -/
def specStreamByte (k2 : Nat) : Nat :=
  let t := k2 ||| 2
  ((t * (t ^^^ 1)) >>> 8) &&& 0xFF

/-- Specification of the key initialisation from a password. -/
def specInitKeys (password : List Nat) : Keys :=
  password.foldl specUpdate { key0 := 0x12345678, key1 := 0x23456789, key2 := 0x34567890 }

/-- Specification of the decryption of a byte string under running keys: each
byte is XORed with the current keystream byte and the plaintext byte is fed
back into the keys. -/
def specDecryptFrom : Keys → List Nat → List Nat
  | _, [] => []
  | k, h :: hs =>
    let p := h ^^^ specStreamByte k.key2
    p :: specDecryptFrom (specUpdate k p) hs

/-- Specification of the full decryption of the encryption header `H` under the
password `p`. -/
def specDecrypt (H p : List Nat) : List Nat :=
  specDecryptFrom (specInitKeys p) H

/-! ## Index decoder, totals and partitioning -/

/-- The inner loop of `rangeWorker`,
`for pos := length - 1; pos >= 0; pos-- { password[pos] = charset[num%size]; num /= size }`;
the first argument is `pos + 1`. For a non-empty charset the index
`num % size` is in range. -/
def decodeLoop (charset : List Nat) : Nat → List Nat → Nat → List Nat
  | 0, password, _ => password
  | pos + 1, password, num =>
    decodeLoop charset pos
      (password.set pos (charset.getD (num % charset.length) 0))
      (num / charset.length)

/-- The candidate decoded from index `i` into a fresh buffer
(`make([]byte, length)`). -/
def decode (charset : List Nat) (length i : Nat) : List Nat :=
  decodeLoop charset length (List.replicate length 0) i

/-- The loop of `calculateTotal`: `total *= charsetSize` in `uint64`. -/
def calculateTotalLoop (charsetSize : Nat) : Nat → Nat → Nat
  | 0, total => total
  | n + 1, total => calculateTotalLoop charsetSize n ((total * charsetSize) % 18446744073709551616)

/-- The method `(*Cracker).calculateTotal`. -/
def calculateTotal (charset : List Nat) (length : Nat) : Nat :=
  calculateTotalLoop charset.length length 1

/-- The worker-launching loop of `crack`, `for i := 0; i < c.workers; i++`,
returning the `(start, end)` pairs passed to `go c.rangeWorker`, in launch
order. The first argument bounds the number of rounds. -/
def launchLoop (workers total chunkSize : Nat) : Nat → Nat → List (Nat × Nat)
  | 0, _ => []
  | fuel + 1, i =>
    if i < workers then
      let start := (i * chunkSize) % 18446744073709551616
      let stop := (start + chunkSize) % 18446744073709551616
      let stop := if i = workers - 1 then total else stop
      if start ≥ total then []
      else (start, stop) :: launchLoop workers total chunkSize fuel (i + 1)
    else []

/-- The ranges `crack` hands to its workers for one length:
`chunkSize := total / workers`, replaced by `1` when it is `0`. -/
def workerRanges (workers total : Nat) : List (Nat × Nat) :=
  let chunkSize := total / workers
  let chunkSize := if chunkSize = 0 then 1 else chunkSize
  launchLoop workers total chunkSize workers 0

/-! ## Worker and coordinator -/

/-- The read-only part of the Go struct `Cracker`, with the two collaborators
of a worker as Boolean functions of the candidate:
`verifier` is `some check` exactly when `c.useHashCheck && c.cryptoCheck != nil`
holds, `check` being `c.cryptoCheck.checkPassword`; `ctxOk` tells whether
`newWorkerContext` returns without error; `tryPassword` is
`(*workerContext).tryPassword`, the full open of the first archive entry. -/
structure Cracker where
  charset : List Nat
  workers : Nat
  verifier : Option (List Nat → Bool)
  ctxOk : Bool
  tryPassword : List Nat → Bool

/-- The mutable part of the Go struct `Cracker` (`attempts`, `checked`,
`found`, `result`) together with two ghost logs that are not in the program:
`decoded` lists the candidates the index decoder has produced and `opened` the
candidates handed to `tryPassword`, both in execution order. -/
structure Shared where
  attempts : Nat
  checked : Nat
  found : Bool
  result : List Nat
  decoded : List (List Nat)
  opened : List (List Nat)
deriving DecidableEq, Repr

/-- The state of a freshly built `Cracker`: zero counters, `found` false, empty
`result`. -/
def Shared.init : Shared :=
  { attempts := 0, checked := 0, found := false, result := [], decoded := [], opened := [] }

/-- The call `atomic.AddUint64(&x, d)`. -/
def atomicAdd (x d : Nat) : Nat :=
  (x + d) % 18446744073709551616

/-- The pair `atomic.AddUint64(&c.attempts, a); atomic.AddUint64(&c.checked, k)`. -/
def Shared.publish (s : Shared) (a k : Nat) : Shared :=
  { s with attempts := atomicAdd s.attempts a, checked := atomicAdd s.checked k }

/-- The condition `c.useHashCheck && c.cryptoCheck != nil && !c.cryptoCheck.checkPassword(password)`. -/
def Cracker.rejects (c : Cracker) (password : List Nat) : Bool :=
  match c.verifier with
  | some check => !check password
  | none => false

/-- The main loop of `rangeWorker`, `for i := start; i < end && !c.found.Load(); i++`,
followed by the two final `atomic.AddUint64` calls. The arguments after the
round bound are the loop index, the password buffer, `localAttempts` and
`localChecked`. The index and the local counters are bounded by the number of
rounds, which is below `2^64`, so their increments cannot wrap. -/
def workerLoop (c : Cracker) (stop length : Nat) :
    Nat → Nat → List Nat → Nat → Nat → Shared → Shared
  | 0, _, _, localAttempts, localChecked, s => s.publish localAttempts localChecked
  | fuel + 1, i, password, localAttempts, localChecked, s =>
    if i < stop ∧ s.found = false then
      let password := decodeLoop c.charset length password i
      let s := { s with decoded := s.decoded ++ [password] }
      let localChecked := localChecked + 1
      if c.rejects password then
        let localAttempts := localAttempts + 1
        if localAttempts % 1000 = 0 then
          workerLoop c stop length fuel (i + 1) password 0 localChecked (s.publish 1000 1000)
        else
          workerLoop c stop length fuel (i + 1) password localAttempts localChecked s
      else
        let localAttempts := localAttempts + 1
        let s := { s with opened := s.opened ++ [password] }
        if c.tryPassword password then
          { s with found := true, result := password }.publish localAttempts localChecked
        else if localAttempts % 1000 = 0 then
          workerLoop c stop length fuel (i + 1) password 0 0 (s.publish 1000 localChecked)
        else
          workerLoop c stop length fuel (i + 1) password localAttempts localChecked s
    else s.publish localAttempts localChecked

/-- The method `(*Cracker).rangeWorker` for the range `[start, stop)`: it
returns at once when `newWorkerContext` fails, and otherwise runs the main loop
on a fresh zeroed buffer with zero local counters. -/
def rangeWorker (c : Cracker) (start stop length : Nat) (s : Shared) : Shared :=
  if c.ctxOk then
    workerLoop c stop length (stop - start) start (List.replicate length 0) 0 0 s
  else s

/-- The workers of one length, run one after another in launch order. -/
def runWorkers (c : Cracker) (length : Nat) (ranges : List (Nat × Nat)) (s : Shared) : Shared :=
  ranges.foldl (fun s r => rangeWorker c r.1 r.2 length s) s

/-- The length loop of `crack`, `for length := c.minLen; length <= c.maxLen; length++`:
leave when `found` is set, otherwise compute the total, launch and join the
workers, and leave when `found` is set. The first argument bounds the number
of rounds. -/
def lengthLoop (c : Cracker) (maxLen : Nat) : Nat → Nat → Shared → Shared
  | 0, _, s => s
  | fuel + 1, length, s =>
    if length ≤ maxLen then
      if s.found then s
      else
        let total := calculateTotal c.charset length
        let s := runWorkers c length (workerRanges c.workers total) s
        if s.found then s else lengthLoop c maxLen fuel (length + 1) s
    else s

/-- The length sweep of `crack` from `minLen` to `maxLen`. -/
def lengthSweep (c : Cracker) (minLen maxLen : Nat) (s : Shared) : Shared :=
  lengthLoop c maxLen (maxLen + 1 - minLen) minLen s

/-! ## Local file header parser -/

/-- The index expression `b[i]`; `none` is the out-of-range panic. -/
def index (b : List Nat) (i : Nat) : Option Nat :=
  b[i]?

/-- The slice expression `b[lo:hi]`; `none` is the out-of-range panic. The
capacity of `b` is taken to be its length, the least it can be. -/
def slice (b : List Nat) (lo hi : Nat) : Option (List Nat) :=
  if lo ≤ hi ∧ hi ≤ b.length then some ((b.drop lo).take (hi - lo)) else none

/-- The call `binary.LittleEndian.Uint16(b)`: `uint16(b[0]) | uint16(b[1])<<8`. -/
def leUint16 (b : List Nat) : Option Nat := do
  let b1 ← index b 1
  let b0 ← index b 0
  pure ((b0 ||| (b1 <<< 8)) % 65536)

/-- The function `extractVerificationBytes`. The outer `none` is a panic; the
inner option is the returned pair, `none` standing for `(nil, false)`. -/
def extractVerificationBytes (zipData : List Nat) : Option (Option ZipCryptoChecker) := do
  if zipData.length < 100 then
    return none
  let z0 ← index zipData 0
  if z0 ≠ 0x50 then
    return none
  let z1 ← index zipData 1
  if z1 ≠ 0x4B then
    return none
  let flags ← leUint16 (← slice zipData 6 8)
  let encrypted := decide ((flags &&& 0x1) ≠ 0)
  let strongEncrypt := decide ((flags &&& 0x40) ≠ 0)
  if !encrypted || strongEncrypt then
    return none
  let modTime ← leUint16 (← slice zipData 10 12)
  let fnameLen ← leUint16 (← slice zipData 26 28)
  let extraLen ← leUint16 (← slice zipData 28 30)
  let headerStart := 30 + fnameLen + extraLen
  if zipData.length < headerStart + 12 then
    return none
  let encHeader ← slice zipData headerStart (headerStart + 12)
  return some
    { crc32Table := crc32IEEETable,
      expectedByte := ((modTime >>> 8) &&& 0xFF) % 256,
      encHeader := encHeader }

/-! ## The flushes of the progress counters -/

/-- The shared states right after each flush of a worker (each pair
`atomic.AddUint64(&c.attempts, _); atomic.AddUint64(&c.checked, _)`), in
execution order: the main loop of `rangeWorker` with the same arguments as
`workerLoop`, collecting the state after every batch flush, after the flush of
a winning match and after the final flush. The last state is the one the
worker returns with. -/
def workerFlushes (c : Cracker) (stop length : Nat) :
    Nat → Nat → List Nat → Nat → Nat → Shared → List Shared
  | 0, _, _, localAttempts, localChecked, s => [s.publish localAttempts localChecked]
  | fuel + 1, i, password, localAttempts, localChecked, s =>
    if i < stop ∧ s.found = false then
      let password := decodeLoop c.charset length password i
      let s := { s with decoded := s.decoded ++ [password] }
      let localChecked := localChecked + 1
      if c.rejects password then
        let localAttempts := localAttempts + 1
        if localAttempts % 1000 = 0 then
          s.publish 1000 1000
            :: workerFlushes c stop length fuel (i + 1) password 0 localChecked
                (s.publish 1000 1000)
        else
          workerFlushes c stop length fuel (i + 1) password localAttempts localChecked s
      else
        let localAttempts := localAttempts + 1
        let s := { s with opened := s.opened ++ [password] }
        if c.tryPassword password then
          [{ s with found := true, result := password }.publish localAttempts localChecked]
        else if localAttempts % 1000 = 0 then
          s.publish 1000 localChecked
            :: workerFlushes c stop length fuel (i + 1) password 0 0
                (s.publish 1000 localChecked)
        else
          workerFlushes c stop length fuel (i + 1) password localAttempts localChecked s
    else [s.publish localAttempts localChecked]

/-- The flushes of one `rangeWorker` call: none when `newWorkerContext` fails. -/
def rangeWorkerFlushes (c : Cracker) (start stop length : Nat) (s : Shared) : List Shared :=
  if c.ctxOk then
    workerFlushes c stop length (stop - start) start (List.replicate length 0) 0 0 s
  else []

/-- A sequence of worker runs `(start, end, length)`, one after another. -/
def runSequence (c : Cracker) (runs : List (Nat × Nat × Nat)) (s : Shared) : Shared :=
  runs.foldl (fun s r => rangeWorker c r.1 r.2.1 r.2.2 s) s

/-- The shared states after every flush of a sequence of worker runs. -/
def sequenceFlushes (c : Cracker) : List (Nat × Nat × Nat) → Shared → List Shared
  | [], _ => []
  | r :: rs, s =>
    rangeWorkerFlushes c r.1 r.2.1 r.2.2 s
      ++ sequenceFlushes c rs (rangeWorker c r.1 r.2.1 r.2.2 s)

/-! ## The workers of a sweep, interleaved -/

/-- Where a worker goroutine stands in `rangeWorker`, between two accesses to
the shared `found` flag and `result` slot: at the loop condition
`i < end && !c.found.Load()`, in the loop body up to `ctx.tryPassword(password)`,
at `c.found.Store(true)`, at the mutex-guarded `c.result = string(password)`, or
returned. -/
inductive WorkerPc where
  | atLoop
  | atTry
  | atStore
  | atWrite
  | returned
deriving DecidableEq, Repr

/-- The private state of one worker goroutine: its place in `rangeWorker`, its
loop index `i` and the end of its range. -/
structure WorkerThread where
  pc : WorkerPc
  i : Nat
  stop : Nat
deriving DecidableEq, Repr

/-- The state of the concurrently running workers of one length: the shared
`found` flag and `result` slot, the workers by launch number, and three ghost
fields that are not in the program: `flips` counts the changes of `found` from
false to true, `setter` is the worker that made the change, and `writes` lists
the writes of `result` (worker and value written) in execution order. The
progress counters are left out: no worker reads them. -/
structure Sweep where
  found : Bool
  result : List Nat
  threads : Nat → WorkerThread
  flips : Nat
  setter : Option Nat
  writes : List (Nat × List Nat)

/-- The workers `crack` has launched on the given ranges, before any of them
has run: `found` is false, and a worker whose `newWorkerContext` fails has
returned at once. -/
def Sweep.init (c : Cracker) (ranges : List (Nat × Nat)) : Sweep :=
  { found := false, result := [], flips := 0, setter := none, writes := [],
    threads := fun k =>
      match ranges[k]? with
      | some r => { pc := if c.ctxOk then WorkerPc.atLoop else WorkerPc.returned,
                    i := r.1, stop := r.2 }
      | none => { pc := WorkerPc.returned, i := 0, stop := 0 } }

/-- The state with worker `k` replaced. -/
def Sweep.setThread (s : Sweep) (k : Nat) (t : WorkerThread) : Sweep :=
  { s with threads := fun j => if j = k then t else s.threads j }

/-- One atomic step of worker `k` of `rangeWorker`:
at the loop condition it loads `found` and enters the body or leaves the loop;
in the body it decodes its candidate, lets the Verifier reject it or calls
`tryPassword`, and goes on to the store or to the next index;
then `c.found.Store(true)`; then `c.result = string(password)` under the mutex
and `return`. -/
def Sweep.step (c : Cracker) (length : Nat) (s : Sweep) (k : Nat) : Sweep :=
  let t := s.threads k
  match t.pc with
  | WorkerPc.atLoop =>
    if t.i < t.stop ∧ s.found = false then s.setThread k { t with pc := WorkerPc.atTry }
    else s.setThread k { t with pc := WorkerPc.returned }
  | WorkerPc.atTry =>
    if c.rejects (decode c.charset length t.i) then
      s.setThread k { t with pc := WorkerPc.atLoop, i := t.i + 1 }
    else if c.tryPassword (decode c.charset length t.i) then
      s.setThread k { t with pc := WorkerPc.atStore }
    else s.setThread k { t with pc := WorkerPc.atLoop, i := t.i + 1 }
  | WorkerPc.atStore =>
    { s with
      found := true,
      flips := if s.found then s.flips else s.flips + 1,
      setter := if s.found then s.setter else some k }.setThread k
      { t with pc := WorkerPc.atWrite }
  | WorkerPc.atWrite =>
    { s with
      result := decode c.charset length t.i,
      writes := s.writes ++ [(k, decode c.charset length t.i)] }.setThread k
      { t with pc := WorkerPc.returned }
  | WorkerPc.returned => s

/-- The workers run under a schedule: the list of the workers that take the
successive atomic steps. Every interleaving is a schedule. -/
def Sweep.run (c : Cracker) (length : Nat) (schedule : List Nat) (s : Sweep) : Sweep :=
  schedule.foldl (Sweep.step c length) s

/-! ## Coordinator and Monitor -/

/-- Where `crack` stands with respect to the stop channel: in the length loop
(workers running or being joined), at the unbuffered send
`stopMonitor <- true`, or past it, at the final report. -/
inductive CrackPc where
  | inLoop
  | atSend
  | reported
deriving DecidableEq, Repr

/-- Where `monitor` stands: in its `select` on the stop channel and the ticker,
or returned. -/
inductive MonitorPc where
  | inSelect
  | returned
deriving DecidableEq, Repr

/-- The Coordinator, the Monitor and the `found` flag they share. -/
structure StopState where
  crack : CrackPc
  monitor : MonitorPc
  found : Bool
deriving DecidableEq, Repr

/-- The things that can happen between `go c.monitor(stopMonitor)` and the
final report: a worker stores `found`; the length loop ends; the ticker fires
and the Monitor takes the `ticker.C` case; the send of the Coordinator meets
the `<-stop` case of the Monitor. -/
inductive StopEvent where
  | workerFinds
  | loopEnds
  | tick
  | handOver
deriving DecidableEq, Repr

/-- The state right after `go c.monitor(stopMonitor)`. -/
def StopState.init : StopState :=
  { crack := CrackPc.inLoop, monitor := MonitorPc.inSelect, found := false }

/-- The state after an event, `none` when the event cannot happen in the state.
A worker can store `found` only while the loop runs and only when the search
space holds an accepted password; the loop ends when `found` is set or the
space is exhausted; on a tick the Monitor returns when it loads `found = true`
and goes back to its `select` otherwise; the unbuffered send completes only
together with a receive, so only while the Monitor is in its `select`. -/
def StopState.step (hasPassword : Bool) (s : StopState) : StopEvent → Option StopState
  | StopEvent.workerFinds =>
    if s.crack = CrackPc.inLoop ∧ hasPassword = true then some { s with found := true }
    else none
  | StopEvent.loopEnds =>
    if s.crack = CrackPc.inLoop ∧ (s.found = true ∨ hasPassword = false) then
      some { s with crack := CrackPc.atSend }
    else none
  | StopEvent.tick =>
    if s.monitor = MonitorPc.inSelect then
      if s.found = true then some { s with monitor := MonitorPc.returned } else some s
    else none
  | StopEvent.handOver =>
    if s.crack = CrackPc.atSend ∧ s.monitor = MonitorPc.inSelect then
      some { s with crack := CrackPc.reported, monitor := MonitorPc.returned }
    else none

/-- The state after a sequence of events, `none` when one of them cannot
happen. -/
def StopState.run (hasPassword : Bool) : List StopEvent → StopState → Option StopState
  | [], s => some s
  | e :: es, s =>
    match s.step hasPassword e with
    | some s2 => StopState.run hasPassword es s2
    | none => none

/-! ## Predicates used to state the properties -/

/-- The ranges `rs`, in order, tile `[a, T)`: each is non-empty, starts where
the previous one stopped, and the last one stops at `T`. -/
def Tiles : Nat → Nat → List (Nat × Nat) → Prop
  | a, T, [] => a = T
  | a, T, r :: rs => r.1 = a ∧ a < r.2 ∧ r.2 ≤ T ∧ Tiles r.2 T rs

/-- The index `x` lies in the half-open range `r`. -/
def InRange (r : Nat × Nat) (x : Nat) : Prop :=
  r.1 ≤ x ∧ x < r.2

/-- The little-endian 16-bit field of `d` at offset `off`, absent bytes read
as zero. -/
def fieldAt (d : List Nat) (off : Nat) : Nat :=
  (d.getD off 0 ||| (d.getD (off + 1) 0 <<< 8)) % 65536

/-- The conditions under which the header parser engages the fast path: at
least 100 bytes, the signature `PK`, flag bit 0 set, flag bit 6 clear, and the
12 header bytes present after the file name and the extra field. -/
def FastPathHeader (d : List Nat) : Prop :=
  100 ≤ d.length ∧ d.getD 0 0 = 0x50 ∧ d.getD 1 0 = 0x4B ∧
  fieldAt d 6 &&& 0x1 ≠ 0 ∧ fieldAt d 6 &&& 0x40 = 0 ∧
  30 + fieldAt d 26 + fieldAt d 28 + 12 ≤ d.length

/-- The candidate `w` ends the search: the Verifier, when present, does not
reject it, and the full open succeeds. -/
def Cracker.accepts (c : Cracker) (w : List Nat) : Bool :=
  !c.rejects w && c.tryPassword w

/-- The candidates of the indices `a, a + 1, ..., b - 1` at length `L`, in
order. -/
def candidates (charset : List Nat) (L a b : Nat) : List (List Nat) :=
  (List.range' a (b - a)).map (decode charset L)

/-- The canonical PKZIP keystream byte, computed from the low 16 bits of `key2`
alone: `t16 = (k2 & 0xFFFF) | 2`, `out = ((t16 * (t16 xor 1)) >> 8) & 0xFF`. -/
def pkzipStreamByte16 (k2 : Nat) : Nat :=
  let t16 := (k2 &&& 0xFFFF) ||| 2
  ((t16 * (t16 ^^^ 1)) >>> 8) &&& 0xFF

/-- Specification of the index encoder:
`encode(word) = Σ_j idx(word[j]) * |Σ|^(L-1-j)`, where `idx(c)` is the position
of `c` in the alphabet and `L` the length of the word. -/
def encode (charset : List Nat) (word : List Nat) : Nat :=
  Finset.sum (Finset.range word.length)
    (fun j => charset.indexOf (word.getD j 0) * charset.length ^ (word.length - 1 - j))

/-- The conversion `[]byte(s)`: the UTF-8 bytes of a string. -/
def bytesOf (s : String) : List Nat :=
  (s.data.flatMap String.utf8EncodeChar).map UInt8.toNat

/-- The function `getCharset`: the bytes of the preset registered under the
given name in the map `charsets`, and the bytes of the name itself when no
preset has that name. -/
def getCharset (preset : String) : List Nat :=
  if preset = "digits" then bytesOf "0123456789"
  else if preset = "lower" then bytesOf "abcdefghijklmnopqrstuvwxyz"
  else if preset = "upper" then bytesOf "ABCDEFGHIJKLMNOPQRSTUVWXYZ"
  else if preset = "alpha" then bytesOf "abcdefghijklmnopqrstuvwxyzABCDEFGHIJKLMNOPQRSTUVWXYZ"
  else if preset = "alnum" then
    bytesOf "abcdefghijklmnopqrstuvwxyzABCDEFGHIJKLMNOPQRSTUVWXYZ0123456789"
  else if preset = "lower+digits" then bytesOf "abcdefghijklmnopqrstuvwxyz0123456789"
  else if preset = "upper+digits" then bytesOf "ABCDEFGHIJKLMNOPQRSTUVWXYZ0123456789"
  else if preset = "all" then
    bytesOf "abcdefghijklmnopqrstuvwxyzABCDEFGHIJKLMNOPQRSTUVWXYZ0123456789!@#$%^&*()_+-=[]\x7b\x7d|;:,.<>?"
  else bytesOf preset

/-- Specification of the encryption of a byte string under running keys: each
plaintext byte is XORed with the current keystream byte and fed back into the
keys. -/
def specEncryptFrom : Keys → List Nat → List Nat
  | _, [] => []
  | k, b :: bs => (b ^^^ specStreamByte k.key2) :: specEncryptFrom (specUpdate k b) bs

/-- Specification of the ZipCrypto encryption of the plaintext header `P` under
the password `p`. -/
def specEncrypt (P p : List Nat) : List Nat :=
  specEncryptFrom (specInitKeys p) P

/-- A 42-byte archive: signature `PK`, flag word 1 (encrypted, no strong
encryption), empty file name and extra field, and 12 bytes after the 30-byte
local header. -/
def shortArchive : List Nat :=
  [0x50, 0x4B, 3, 4, 20, 0, 1, 0] ++ List.replicate 34 0

/-- A 100-byte archive: signature `PK`, flag word 1, mod-time `0x1234`, a
two-byte file name, a one-byte extra field, then the bytes `0, 1, 2, ...`. -/
def sampleArchive : List Nat :=
  [0x50, 0x4B, 3, 4, 20, 0, 1, 0, 8, 0, 0x34, 0x12] ++ List.replicate 14 0
    ++ [2, 0, 1, 0] ++ [97, 98, 7] ++ List.range 67

/-- A two-letter search in the slow path: alphabet `ab`, two workers, no
Verifier, an archive whose only accepted password is `ba`. -/
def sampleCracker : Cracker :=
  { charset := [97, 98], workers := 2, verifier := none, ctxOk := true,
    tryPassword := fun w => decide (w = [98, 97]) }

/-- A fast-path search over the digits with one worker: the Verifier rejects
every candidate and the archive accepts none. -/
def digitsFastCracker : Cracker :=
  { charset := [48, 49, 50, 51, 52, 53, 54, 55, 56, 57], workers := 1,
    verifier := some (fun _ => false), ctxOk := true, tryPassword := fun _ => false }

theorem drop_set_self (buf : List Nat) (k c : Nat) (hk : k < buf.length) :
    (buf.set k c).drop k = c :: buf.drop (k + 1) := by
  induction buf generalizing k with
  | nil => simp at hk
  | cons b bs ih =>
    cases k with
    | zero => simp
    | succ k =>
      have hk2 : k < bs.length := by simpa using hk
      simpa using ih k hk2

theorem decodeLoop_eq_decode (charset : List Nat) :
    ∀ (k : Nat) (buf : List Nat) (num : Nat), k ≤ buf.length →
      decodeLoop charset k buf num = decode charset k num ++ buf.drop k
  | 0, buf, num, _ => by simp [decode, decodeLoop]
  | k + 1, buf, num, hk => by
    have h1 := decodeLoop_eq_decode charset k
      (buf.set k (charset.getD (num % charset.length) 0)) (num / charset.length)
      (by rw [List.length_set]; omega)
    have h2 := decodeLoop_eq_decode charset k
      ((List.replicate (k + 1) 0).set k (charset.getD (num % charset.length) 0))
      (num / charset.length) (by simp)
    rw [drop_set_self _ _ _ (by omega)] at h1
    rw [drop_set_self _ _ _ (by simp)] at h2
    have h3 : decode charset (k + 1) num
        = decode charset k (num / charset.length)
          ++ [charset.getD (num % charset.length) 0] := by
      rw [decode, decodeLoop, h2]
      simp
    rw [decodeLoop, h1, h3]
    simp

theorem decode_zero (charset : List Nat) (i : Nat) : decode charset 0 i = [] := by
  simp [decode, decodeLoop]

theorem decode_succ (charset : List Nat) (k i : Nat) :
    decode charset (k + 1) i
      = decode charset k (i / charset.length) ++ [charset.getD (i % charset.length) 0] := by
  have h := decodeLoop_eq_decode charset k
    ((List.replicate (k + 1) 0).set k (charset.getD (i % charset.length) 0))
    (i / charset.length) (by simp)
  rw [drop_set_self _ _ _ (by simp)] at h
  rw [decode, decodeLoop, h]
  simp

theorem length_decode (charset : List Nat) : ∀ (L i : Nat), (decode charset L i).length = L
  | 0, i => by simp [decode_zero]
  | L + 1, i => by simp [decode_succ, length_decode charset L]

/-- A worker that decodes into a buffer of the right length gets the same word
as one that decodes into a fresh buffer: every position is overwritten. -/
theorem decodeLoop_full (charset : List Nat) (L : Nat) (buf : List Nat) (num : Nat)
    (h : buf.length = L) : decodeLoop charset L buf num = decode charset L num := by
  rw [decodeLoop_eq_decode charset L buf num (by omega)]
  simp [← h]

theorem decode_mem (charset : List Nat) (hne : charset ≠ []) :
    ∀ (L i : Nat), ∀ c ∈ decode charset L i, c ∈ charset
  | 0, i, c, hc => by simp [decode_zero] at hc
  | L + 1, i, c, hc => by
    rw [decode_succ, List.mem_append] at hc
    rcases hc with hc | hc
    · exact decode_mem charset hne L _ c hc
    · have hpos : 0 < charset.length := List.length_pos.mpr hne
      have hlt : i % charset.length < charset.length := Nat.mod_lt _ hpos
      rw [List.mem_singleton] at hc
      rw [hc, List.getD_eq_getElem _ _ hlt]
      exact List.getElem_mem _

theorem decode_injective (charset : List Nat) (hnd : charset.Nodup) :
    ∀ (L i j : Nat), i < charset.length ^ L → j < charset.length ^ L →
      decode charset L i = decode charset L j → i = j
  | 0, i, j, hi, hj, _ => by
    simp at hi hj
    omega
  | L + 1, i, j, hi, hj, h => by
    have hpos : 0 < charset.length := by
      rcases Nat.eq_zero_or_pos charset.length with h0 | h0
      · rw [h0] at hi
        simp at hi
      · exact h0
    rw [decode_succ, decode_succ] at h
    have hlen : (decode charset L (i / charset.length)).length
        = (decode charset L (j / charset.length)).length := by
      rw [length_decode, length_decode]
    have hsplit := List.append_inj h hlen
    have hdi : i / charset.length < charset.length ^ L := by
      rw [Nat.div_lt_iff_lt_mul hpos]
      simpa [pow_succ] using hi
    have hdj : j / charset.length < charset.length ^ L := by
      rw [Nat.div_lt_iff_lt_mul hpos]
      simpa [pow_succ] using hj
    have hq := decode_injective charset hnd L _ _ hdi hdj hsplit.1
    have hmi : i % charset.length < charset.length := Nat.mod_lt _ hpos
    have hmj : j % charset.length < charset.length := Nat.mod_lt _ hpos
    have hlast : charset.getD (i % charset.length) 0 = charset.getD (j % charset.length) 0 := by
      simpa using hsplit.2
    rw [List.getD_eq_getElem _ _ hmi, List.getD_eq_getElem _ _ hmj] at hlast
    have hr : i % charset.length = j % charset.length :=
      (List.Nodup.getElem_inj_iff hnd).mp hlast
    rw [← Nat.div_add_mod i charset.length, ← Nat.div_add_mod j charset.length, hq, hr]

theorem decode_surjective (charset : List Nat) :
    ∀ (L : Nat) (w : List Nat), w.length = L → (∀ c ∈ w, c ∈ charset) →
      ∃ i, i < charset.length ^ L ∧ decode charset L i = w
  | 0, w, hw, _ => by
    refine ⟨0, by simp, ?_⟩
    rw [decode_zero]
    exact (List.length_eq_zero.mp hw).symm
  | L + 1, w, hw, hmem => by
    rcases List.eq_nil_or_concat w with hnil | ⟨w0, c, hc⟩
    · rw [hnil] at hw
      simp at hw
    · rw [List.concat_eq_append] at hc
      subst hc
      have hw0 : w0.length = L := by simpa using hw
      obtain ⟨q, hq, hdq⟩ := decode_surjective charset L w0 hw0
        (fun x hx => hmem x (List.mem_append_left _ hx))
      have hcmem : c ∈ charset := hmem c (by simp)
      obtain ⟨d, hd, hdc⟩ := List.getElem_of_mem hcmem
      have hpos : 0 < charset.length := by omega
      refine ⟨q * charset.length + d, ?_, ?_⟩
      · calc q * charset.length + d < q * charset.length + charset.length := by omega
          _ = (q + 1) * charset.length := by ring
          _ ≤ charset.length ^ L * charset.length := Nat.mul_le_mul_right _ hq
          _ = charset.length ^ (L + 1) := by rw [pow_succ]
      · have h1 : (q * charset.length + d) / charset.length = q := by
          rw [Nat.add_comm, Nat.add_mul_div_right _ _ hpos, Nat.div_eq_of_lt hd]
          simp
        have h2 : (q * charset.length + d) % charset.length = d := by
          rw [Nat.add_comm, Nat.add_mul_mod_self_right, Nat.mod_eq_of_lt hd]
        rw [decode_succ, h1, h2, hdq, List.getD_eq_getElem _ _ hd, hdc]

/-- C1: for a non-empty duplicate-free alphabet and a length `L` whose
combination count fits in 64 bits, the decoding loop of `rangeWorker` sends the
indices below `|Σ|^L` to words of length `L` over the alphabet, and every such
word is produced by exactly one index. -/
theorem decode_bijective (charset : List Nat) (L : Nat) (hne : charset ≠ [])
    (hnd : charset.Nodup) (hfit : charset.length ^ L < 2 ^ 64) :
    (∀ i, i < charset.length ^ L →
      i < 2 ^ 64 ∧ (decode charset L i).length = L ∧ ∀ c ∈ decode charset L i, c ∈ charset) ∧
    (∀ w : List Nat, w.length = L → (∀ c ∈ w, c ∈ charset) →
      ∃! i, i < charset.length ^ L ∧ decode charset L i = w) := by
  refine ⟨fun i hi => ⟨lt_trans hi hfit, length_decode charset L i,
    decode_mem charset hne L i⟩, fun w hw hmem => ?_⟩
  obtain ⟨i, hi, hiw⟩ := decode_surjective charset L w hw hmem
  refine ⟨i, ⟨hi, hiw⟩, ?_⟩
  rintro j ⟨hj, hjw⟩
  exact decode_injective charset hnd L j i hj hi (hjw.trans hiw.symm)

/-- Witness for C1: the alphabet `ab` at length 2. -/
theorem decode_bijective_witness :
    ([97, 98] : List Nat) ≠ [] ∧ ([97, 98] : List Nat).Nodup ∧
    ([97, 98] : List Nat).length ^ 2 < 2 ^ 64 ∧
    ((∀ i, i < ([97, 98] : List Nat).length ^ 2 →
      i < 2 ^ 64 ∧ (decode [97, 98] 2 i).length = 2 ∧ ∀ c ∈ decode [97, 98] 2 i, c ∈ [97, 98]) ∧
    (∀ w : List Nat, w.length = 2 → (∀ c ∈ w, c ∈ ([97, 98] : List Nat)) →
      ∃! i, i < ([97, 98] : List Nat).length ^ 2 ∧ decode [97, 98] 2 i = w)) :=
  ⟨by decide, by decide, by decide,
    decode_bijective [97, 98] 2 (by decide) (by decide) (by decide)⟩

/-! ## The worker ranges partition the index space -/

theorem Tiles.le : ∀ (rs : List (Nat × Nat)) (a T : Nat), Tiles a T rs → a ≤ T
  | [], a, T, h => by
    simp only [Tiles] at h
    omega
  | r :: rs, a, T, h => by
    simp only [Tiles] at h
    omega

theorem Tiles.cover : ∀ (rs : List (Nat × Nat)) (a T : Nat), Tiles a T rs →
    ∀ x, (a ≤ x ∧ x < T) ↔ ∃ r ∈ rs, InRange r x
  | [], a, T, h, x => by
    simp only [Tiles] at h
    simp
    omega
  | r :: rs, a, T, h, x => by
    simp only [Tiles] at h
    obtain ⟨h1, h2, h3, h4⟩ := h
    have ih := Tiles.cover rs r.2 T h4 x
    have hle := Tiles.le rs r.2 T h4
    simp only [List.mem_cons, exists_eq_or_imp, InRange]
    simp only [InRange] at ih
    rw [← ih]
    omega

theorem Tiles.after : ∀ (rs : List (Nat × Nat)) (a T : Nat), Tiles a T rs →
    ∀ r ∈ rs, a ≤ r.1
  | [], _, _, _, r, hr => by simp at hr
  | q :: rs, a, T, h, r, hr => by
    simp only [Tiles] at h
    obtain ⟨h1, h2, h3, h4⟩ := h
    rcases List.mem_cons.mp hr with hq | hq
    · rw [hq]
      omega
    · have := Tiles.after rs q.2 T h4 r hq
      omega

theorem Tiles.pairwise : ∀ (rs : List (Nat × Nat)) (a T : Nat), Tiles a T rs →
    rs.Pairwise (fun r q => ∀ x, ¬ (InRange r x ∧ InRange q x))
  | [], _, _, _ => List.Pairwise.nil
  | q :: rs, a, T, h => by
    have h0 := h
    simp only [Tiles] at h
    obtain ⟨h1, h2, h3, h4⟩ := h
    refine List.Pairwise.cons ?_ (Tiles.pairwise rs q.2 T h4)
    intro r hr x hx
    have := Tiles.after rs q.2 T h4 r hr
    simp only [InRange] at hx
    omega

theorem launchLoop_tiles (W T c : Nat) (hc : 1 ≤ c) (hcT : c = 1 ∨ W * c ≤ T)
    (hT : T < 18446744073709551616) :
    ∀ (fuel i : Nat), i + fuel = W → i * c ≤ T → (i = W → i * c = T) →
      Tiles (i * c) T (launchLoop W T c fuel i)
  | 0, i, hi, _, hend => by
    simp only [launchLoop, Tiles]
    exact hend (by omega)
  | fuel + 1, i, hi, hle, _ => by
    have hiW : i < W := by omega
    have hstart : (i * c) % 18446744073709551616 = i * c := Nat.mod_eq_of_lt (by omega)
    rw [launchLoop, if_pos hiW]
    simp only [hstart]
    by_cases hge : i * c ≥ T
    · rw [if_pos hge]
      simp only [Tiles]
      omega
    · rw [if_neg hge]
      by_cases hlast : i = W - 1
      · have hf : fuel = 0 := by omega
        subst hf
        simp only [if_pos hlast, launchLoop, Tiles]
        exact ⟨trivial, by omega, le_refl T, trivial⟩
      · have hnext : (i + 1) * c ≤ T := by
          rcases hcT with h1 | h2
          · subst h1
            omega
          · calc (i + 1) * c ≤ W * c := Nat.mul_le_mul_right _ (by omega)
              _ ≤ T := h2
        have hexp : (i + 1) * c = i * c + c := by ring
        have hstop : (i * c + c) % 18446744073709551616 = i * c + c :=
          Nat.mod_eq_of_lt (by omega)
        have ih := launchLoop_tiles W T c hc hcT hT fuel (i + 1) (by omega) hnext
          (fun h => by omega)
        simp only [if_neg hlast, hstop, Tiles]
        rw [hexp] at ih
        exact ⟨trivial, by omega, by omega, ih⟩

/-- The ranges launched for one length tile `[0, total)`, for every worker
count `≥ 1` and every 64-bit total (`0` included: no worker is launched). -/
theorem workerRanges_tiles (W T : Nat) (hW : 1 ≤ W) (hT : T < 18446744073709551616) :
    Tiles 0 T (workerRanges W T) := by
  have key : ∀ c, 1 ≤ c → (c = 1 ∨ W * c ≤ T) → Tiles 0 T (launchLoop W T c W 0) := by
    intro c hc hcT
    have h := launchLoop_tiles W T c hc hcT hT W 0 (by omega) (by omega) (fun h => by omega)
    simpa using h
  unfold workerRanges
  by_cases h0 : T / W = 0
  · simp only [h0, if_true]
    exact key 1 (le_refl 1) (Or.inl rfl)
  · simp only [if_neg h0]
    refine key (T / W) (Nat.pos_of_ne_zero h0) (Or.inr ?_)
    exact Nat.mul_div_le T W

/-- C2: for every worker count `W ≥ 1` and every (64-bit) total `T ≥ 1`, the
ranges the partition loop of `crack` hands to the workers it launches are
pairwise disjoint and their union is exactly `[0, T)`. -/
theorem workerRanges_partition (W T : Nat) (hW : 1 ≤ W) (hT : 1 ≤ T)
    (hT64 : T < 2 ^ 64) :
    (∀ x, x < T ↔ ∃ r ∈ workerRanges W T, r.1 ≤ x ∧ x < r.2) ∧
    (workerRanges W T).Pairwise
      (fun r q => ∀ x, ¬ ((r.1 ≤ x ∧ x < r.2) ∧ (q.1 ≤ x ∧ x < q.2))) ∧
    workerRanges W T ≠ [] := by
  have ht := workerRanges_tiles W T hW (by simpa using hT64)
  refine ⟨fun x => ?_, Tiles.pairwise _ 0 T ht, ?_⟩
  · have := Tiles.cover _ 0 T ht x
    simp only [InRange] at this
    rw [← this]
    omega
  · intro hnil
    rw [hnil] at ht
    simp only [Tiles] at ht
    omega

/-- Witness for C2 (scenario S6): eight workers on `10^3` indices get eight
ranges of 125 indices each. -/
theorem workerRanges_partition_witness :
    (1 ≤ 8 ∧ 1 ≤ 10 ^ 3 ∧ 10 ^ 3 < 2 ^ 64) ∧
    workerRanges 8 (10 ^ 3)
      = [(0, 125), (125, 250), (250, 375), (375, 500), (500, 625), (625, 750),
          (750, 875), (875, 1000)] ∧
    ((∀ x, x < 10 ^ 3 ↔ ∃ r ∈ workerRanges 8 (10 ^ 3), r.1 ≤ x ∧ x < r.2) ∧
    (workerRanges 8 (10 ^ 3)).Pairwise
      (fun r q => ∀ x, ¬ ((r.1 ≤ x ∧ x < r.2) ∧ (q.1 ≤ x ∧ x < q.2))) ∧
    workerRanges 8 (10 ^ 3) ≠ []) :=
  ⟨by decide, by decide,
    workerRanges_partition 8 (10 ^ 3) (by decide) (by decide) (by decide)⟩

/-! ## The verifier agrees with the reference decryption -/

theorem xor_and_255 (s x : Nat) (hx : x < 256) : (s ^^^ x) &&& 0xFF = (s % 256) ^^^ x := by
  have h : (0xFF : Nat) = 2 ^ 8 - 1 := by norm_num
  have hx8 : x < 2 ^ 8 := by simpa using hx
  rw [h, Nat.and_pow_two_sub_one_eq_mod]
  apply Nat.eq_of_testBit_eq
  intro i
  simp only [Nat.testBit_mod_two_pow, Nat.testBit_xor, show (256 : Nat) = 2 ^ 8 by norm_num]
  by_cases hi : i < 8
  · simp [hi]
  · have hxi : x.testBit i = false := by
      apply Nat.testBit_lt_two_pow
      calc x < 2 ^ 8 := hx8
        _ ≤ 2 ^ i := Nat.pow_le_pow_right (by norm_num) (by omega)
    simp [hi, hxi]

theorem and_255_eq_mod (x : Nat) : x &&& 0xFF = x % 256 := by
  have h : (0xFF : Nat) = 2 ^ 8 - 1 := by norm_num
  rw [h, Nat.and_pow_two_sub_one_eq_mod]

theorem streamByte_eq_spec (k2 : Nat) : streamByte k2 = specStreamByte k2 := by
  simp only [streamByte, specStreamByte, and_255_eq_mod, Nat.shiftRight_eq_div_pow]
  omega

theorem streamByte_lt (k2 : Nat) : streamByte k2 < 256 := by
  simp only [streamByte]
  omega

theorem keyStep_eq_spec (k : Keys) (b : Nat) (hb : b < 256) :
    keyStep crc32IEEETable k b = specUpdate k b := by
  have hy : ∀ y : Nat, y % 256 < 256 := fun y => Nat.mod_lt _ (by norm_num)
  simp only [keyStep, specUpdate, specCrc32Step, xor_and_255 _ b hb, and_255_eq_mod,
    xor_and_255 _ _ (hy _)]
  norm_num

theorem foldl_keyStep_eq_spec (p : List Nat) (hp : ∀ b ∈ p, b < 256) (k : Keys) :
    p.foldl (keyStep crc32IEEETable) k = p.foldl specUpdate k := by
  induction p generalizing k with
  | nil => rfl
  | cons b bs ih =>
    simp only [List.foldl_cons]
    rw [keyStep_eq_spec k b (hp b (by simp))]
    exact ih (fun x hx => hp x (by simp [hx])) _

theorem passwordKeys_eq_spec (p : List Nat) (hp : ∀ b ∈ p, b < 256) :
    passwordKeys crc32IEEETable p = specInitKeys p := by
  unfold passwordKeys specInitKeys
  exact foldl_keyStep_eq_spec p hp _

theorem foldl_range_getD (f : Keys → Nat → Keys) (H : List Nat) (k : Keys) :
    ∀ n, n ≤ H.length →
      (List.range n).foldl (fun k i => f k (H.getD i 0)) k = (H.take n).foldl f k
  | 0, _ => by simp
  | n + 1, hn => by
    have hlt : n < H.length := by omega
    rw [List.range_succ, List.foldl_append, foldl_range_getD f H k n (by omega),
      List.take_succ, List.foldl_append, List.getElem?_eq_getElem hlt]
    simp [List.getElem?_eq_getElem hlt]

theorem headerKeys_eq_spec (H : List Nat) (k : Keys) (hlen : 11 ≤ H.length)
    (hH : ∀ b ∈ H, b < 256) :
    headerKeys crc32IEEETable H k
      = (H.take 11).foldl (fun k h => specUpdate k (h ^^^ specStreamByte k.key2)) k := by
  unfold headerKeys
  rw [foldl_range_getD (fun k h => keyStep crc32IEEETable k (streamByte k.key2 ^^^ h)) H k 11 hlen]
  have hsub : ∀ b ∈ H.take 11, b < 256 := fun b hb => hH b (List.mem_of_mem_take hb)
  generalize H.take 11 = hs at hsub
  induction hs generalizing k with
  | nil => rfl
  | cons h hs ih =>
    simp only [List.foldl_cons]
    have hh : h < 256 := hsub h (by simp)
    have hlt : streamByte k.key2 ^^^ h < 256 := by
      have := @Nat.xor_lt_two_pow (streamByte k.key2) h 8
        (by simpa using streamByte_lt k.key2) (by simpa using hh)
      simpa using this
    rw [keyStep_eq_spec k _ hlt, streamByte_eq_spec, Nat.xor_comm]
    exact ih _ (fun x hx => hsub x (by simp [hx]))

theorem specDecryptFrom_append (xs ys : List Nat) (k : Keys) :
    specDecryptFrom k (xs ++ ys)
      = specDecryptFrom k xs
        ++ specDecryptFrom
            (xs.foldl (fun k h => specUpdate k (h ^^^ specStreamByte k.key2)) k) ys := by
  induction xs generalizing k with
  | nil => rfl
  | cons x xs ih => simp [specDecryptFrom, ih]

theorem length_specDecryptFrom (xs : List Nat) (k : Keys) :
    (specDecryptFrom k xs).length = xs.length := by
  induction xs generalizing k with
  | nil => rfl
  | cons x xs ih => simp [specDecryptFrom, ih]

/-- C3: for a 12-byte header `H`, a verification byte `v` and a password `p`
of any length, `checkPassword` answers true exactly when the twelfth plaintext
byte of the reference ZipCrypto decryption of `H` under `p` is `v`. -/
theorem checkPassword_iff_specDecrypt (H : List Nat) (v : Nat) (p : List Nat)
    (hlen : H.length = 12) (hH : ∀ b ∈ H, b < 256) (hp : ∀ b ∈ p, b < 256) :
    checkPassword { encHeader := H, crc32Table := crc32IEEETable, expectedByte := v } p = true
      ↔ (specDecrypt H p)[11]? = some v := by
  have h11 : 11 < H.length := by omega
  have hsplit : H = H.take 11 ++ [H[11]] := by
    have h := List.take_succ (l := H) (n := 11)
    rw [List.getElem?_eq_getElem h11] at h
    have hall : H.take 12 = H := List.take_of_length_le (by omega)
    rw [hall] at h
    simpa using h
  have hdec : (specDecrypt H p)[11]?
      = some (H[11] ^^^ specStreamByte
          ((H.take 11).foldl (fun k h => specUpdate k (h ^^^ specStreamByte k.key2))
            (specInitKeys p)).key2) := by
    unfold specDecrypt
    conv_lhs => rw [hsplit]
    rw [specDecryptFrom_append]
    have hl : (specDecryptFrom (specInitKeys p) (H.take 11)).length = 11 := by
      rw [length_specDecryptFrom]
      simp
      omega
    rw [List.getElem?_append_right (by omega), hl]
    simp [specDecryptFrom]
  rw [hdec]
  simp only [checkPassword, decide_eq_true_eq, Option.some.injEq]
  rw [passwordKeys_eq_spec p hp, headerKeys_eq_spec H _ (by omega) hH, streamByte_eq_spec,
    List.getD_eq_getElem _ _ h11, Nat.xor_comm]

/-- Witness for C3: the all-zero header, verification byte 17 and the password
with bytes 1, 2. -/
theorem checkPassword_iff_specDecrypt_witness :
    (List.replicate 12 0).length = 12 ∧ (∀ b ∈ List.replicate 12 0, b < 256) ∧
    (∀ b ∈ ([1, 2] : List Nat), b < 256) ∧
    (checkPassword
        { encHeader := List.replicate 12 0, crc32Table := crc32IEEETable, expectedByte := 17 }
        [1, 2] = true
      ↔ (specDecrypt (List.replicate 12 0) [1, 2])[11]? = some 17) :=
  ⟨by decide, by decide, by decide,
    checkPassword_iff_specDecrypt (List.replicate 12 0) 17 [1, 2] (by decide) (by decide)
      (by decide)⟩

/-! ## The total of a length -/

theorem calculateTotalLoop_eq (n : Nat) :
    ∀ (k t : Nat), t < 18446744073709551616 →
      calculateTotalLoop n k t = (t * n ^ k) % 18446744073709551616
  | 0, t, ht => by simp [calculateTotalLoop, Nat.mod_eq_of_lt ht]
  | k + 1, t, _ => by
    rw [calculateTotalLoop,
      calculateTotalLoop_eq n k _ (Nat.mod_lt _ (by norm_num)), Nat.mod_mul_mod]
    congr 1
    ring

theorem calculateTotal_eq (charset : List Nat) (L : Nat) :
    calculateTotal charset L = charset.length ^ L % 18446744073709551616 := by
  rw [calculateTotal, calculateTotalLoop_eq _ _ _ (by norm_num)]
  simp

theorem calculateTotal_of_fit (charset : List Nat) (L : Nat)
    (h : charset.length ^ L < 18446744073709551616) :
    calculateTotal charset L = charset.length ^ L := by
  rw [calculateTotal_eq, Nat.mod_eq_of_lt h]

/-- C5, counterexample: for the ten digits at length 20 the count `10^20` does
not fit in 64 bits, yet `calculateTotal` returns the wrapped value
`10^20 mod 2^64`, and a single worker is launched on the whole wrapped range. -/
theorem calculateTotal_wraps_digits_20 :
    ¬ (([48, 49, 50, 51, 52, 53, 54, 55, 56, 57] : List Nat).length ^ 20 < 2 ^ 64) ∧
    calculateTotal [48, 49, 50, 51, 52, 53, 54, 55, 56, 57] 20 = 7766279631452241920 ∧
    calculateTotal [48, 49, 50, 51, 52, 53, 54, 55, 56, 57] 20
      ≠ ([48, 49, 50, 51, 52, 53, 54, 55, 56, 57] : List Nat).length ^ 20 ∧
    workerRanges 1 (calculateTotal [48, 49, 50, 51, 52, 53, 54, 55, 56, 57] 20)
      = [(0, 7766279631452241920)] := by
  refine ⟨by decide, by decide, by decide, by decide⟩

/-- C5, amended: the total partitioned for length `L` is `|Σ|^L mod 2^64`
(so it is `|Σ|^L` exactly when that fits in 64 bits); no length is rejected:
for every worker count `W ≥ 1` the launched ranges tile `[0, |Σ|^L mod 2^64)`. -/
theorem calculateTotal_eq_pow_mod (charset : List Nat) (L W : Nat) (hW : 1 ≤ W) :
    calculateTotal charset L = charset.length ^ L % 2 ^ 64 ∧
    (charset.length ^ L < 2 ^ 64 → calculateTotal charset L = charset.length ^ L) ∧
    Tiles 0 (charset.length ^ L % 2 ^ 64) (workerRanges W (calculateTotal charset L)) := by
  have h := calculateTotal_eq charset L
  have h64 : (2 : Nat) ^ 64 = 18446744073709551616 := by norm_num
  rw [h64]
  refine ⟨h, fun hfit => calculateTotal_of_fit charset L hfit, ?_⟩
  rw [h]
  exact workerRanges_tiles W _ hW (Nat.mod_lt _ (by norm_num))

/-- Witness for the amended C5: the ten digits at length 20 with one worker. -/
theorem calculateTotal_eq_pow_mod_witness :
    1 ≤ 1 ∧
    (calculateTotal [48, 49, 50, 51, 52, 53, 54, 55, 56, 57] 20
        = ([48, 49, 50, 51, 52, 53, 54, 55, 56, 57] : List Nat).length ^ 20 % 2 ^ 64 ∧
    (([48, 49, 50, 51, 52, 53, 54, 55, 56, 57] : List Nat).length ^ 20 < 2 ^ 64 →
      calculateTotal [48, 49, 50, 51, 52, 53, 54, 55, 56, 57] 20
        = ([48, 49, 50, 51, 52, 53, 54, 55, 56, 57] : List Nat).length ^ 20) ∧
    Tiles 0 (([48, 49, 50, 51, 52, 53, 54, 55, 56, 57] : List Nat).length ^ 20 % 2 ^ 64)
      (workerRanges 1 (calculateTotal [48, 49, 50, 51, 52, 53, 54, 55, 56, 57] 20))) :=
  ⟨le_refl 1, calculateTotal_eq_pow_mod [48, 49, 50, 51, 52, 53, 54, 55, 56, 57] 20 1 (le_refl 1)⟩

/-! ## The header parser -/

theorem index_eq (d : List Nat) (i : Nat) (h : i < d.length) :
    index d i = some (d.getD i 0) := by
  simp [index, List.getElem?_eq_getElem h]

theorem slice_two (d : List Nat) (off : Nat) (h : off + 2 ≤ d.length) :
    slice d off (off + 2) = some [d.getD off 0, d.getD (off + 1) 0] := by
  have h0 : off < d.length := by omega
  have h1 : off + 1 < d.length := by omega
  simp only [slice]
  rw [if_pos ⟨by omega, h⟩]
  congr 1
  apply List.ext_getElem?
  intro i
  rcases i with _ | _ | i
  · simp [List.getElem?_take, List.getElem?_eq_getElem h0]
  · simp [List.getElem?_take, List.getElem?_eq_getElem h1]
  · simp [List.getElem?_take]

theorem leUint16_field (d : List Nat) (off : Nat) :
    leUint16 [d.getD off 0, d.getD (off + 1) 0] = some (fieldAt d off) := by
  simp [leUint16, index, fieldAt]

theorem leUint16_of_bytes (a b : Nat) (ha : a < 256) (hb : b < 256) :
    (a ||| (b <<< 8)) % 65536 = 256 * b + a := by
  have h := @Nat.mul_add_lt_is_or 8 a (by norm_num; exact ha) b
  rw [Nat.shiftLeft_eq, Nat.or_comm, Nat.mul_comm, ← h]
  norm_num
  omega

theorem extract_cases (d : List Nat) :
    (FastPathHeader d ∧ extractVerificationBytes d = some (some
      { crc32Table := crc32IEEETable,
        expectedByte := ((fieldAt d 10 >>> 8) &&& 0xFF) % 256,
        encHeader := (d.drop (30 + fieldAt d 26 + fieldAt d 28)).take 12 })) ∨
    (¬ FastPathHeader d ∧ extractVerificationBytes d = some none) := by
  by_cases hlen : d.length < 100
  · right
    refine ⟨fun h => by unfold FastPathHeader at h; omega, ?_⟩
    simp [extractVerificationBytes, hlen]
  · have e0 := index_eq d 0 (by omega)
    have e1 := index_eq d 1 (by omega)
    have s6 : slice d 6 8 = _ := slice_two d 6 (by omega)
    have s10 : slice d 10 12 = _ := slice_two d 10 (by omega)
    have s26 : slice d 26 28 = _ := slice_two d 26 (by omega)
    have s28 : slice d 28 30 = _ := slice_two d 28 (by omega)
    have l6 := leUint16_field d 6
    have l10 := leUint16_field d 10
    have l26 := leUint16_field d 26
    have l28 := leUint16_field d 28
    simp only [Nat.reduceAdd] at l6 l10 l26 l28
    simp only [extractVerificationBytes, hlen, if_false, e0, e1, s6, s10, s26, s28, l6, l10,
      l26, l28, Option.bind_eq_bind, Option.some_bind, Option.pure_def, pure_bind, ne_eq,
      ite_not, Bool.or_eq_true, Bool.not_eq_true', decide_eq_false_iff_not, decide_eq_true_eq,
      not_not]
    by_cases c0 : d.getD 0 0 = 80
    swap
    · exact Or.inr ⟨fun h => c0 h.2.1, by simp only [c0, if_false]⟩
    by_cases c1 : d.getD 1 0 = 75
    swap
    · exact Or.inr ⟨fun h => c1 h.2.2.1, by simp only [c0, c1, if_true, if_false]⟩
    by_cases c2 : fieldAt d 6 &&& 1 = 0
    · exact Or.inr ⟨fun h => h.2.2.2.1 c2, by simp only [c0, c1, c2, if_true, true_or]⟩
    by_cases c3 : fieldAt d 6 &&& 64 = 0
    swap
    · exact Or.inr ⟨fun h => c3 h.2.2.2.2.1,
        by simp only [c0, c1, c2, c3, if_true, not_false_eq_true, or_true]⟩
    by_cases c4 : d.length < 30 + fieldAt d 26 + fieldAt d 28 + 12
    · exact Or.inr ⟨fun h => by have := h.2.2.2.2.2; omega,
        by simp only [c0, c1, c2, c3, c4, if_true, if_false, not_true_eq_false, or_self]⟩
    · refine Or.inl ⟨⟨by omega, c0, c1, c2, c3, by omega⟩, ?_⟩
      have hs : slice d (30 + fieldAt d 26 + fieldAt d 28) (30 + fieldAt d 26 + fieldAt d 28 + 12)
          = some ((d.drop (30 + fieldAt d 26 + fieldAt d 28)).take 12) := by
        simp only [slice]
        rw [if_pos ⟨by omega, by omega⟩]
        simp
      simp only [c0, c1, c2, c3, c4, hs, if_true, if_false, not_true_eq_false, or_self,
        Option.some_bind]

/-- C6, counterexample: a 42-byte archive with the signature, flag bit 0 set,
flag bit 6 clear, empty name and extra field and 12 bytes after the 30-byte
header meets every condition of the claim, yet the parser returns no Verifier:
it first requires at least 100 bytes. -/
theorem extract_short_archive :
    (shortArchive[0]? = some 0x50 ∧ shortArchive[1]? = some 0x4B ∧
      fieldAt shortArchive 6 &&& 0x1 ≠ 0 ∧ fieldAt shortArchive 6 &&& 0x40 = 0 ∧
      shortArchive.length ≥ 30 + fieldAt shortArchive 26 + fieldAt shortArchive 28 + 12) ∧
    extractVerificationBytes shortArchive = some none := by
  decide

/-- C6, amended: the parser returns a Verifier if and only if the archive has
at least 100 bytes, starts with `PK`, has flag bit 0 set and flag bit 6 clear,
and has at least `header_start + 12` bytes; in every other case it returns no
Verifier (and it never panics). -/
theorem extract_isSome_iff (d : List Nat) :
    ((∃ z, extractVerificationBytes d = some (some z)) ↔
      (100 ≤ d.length ∧ d.getD 0 0 = 0x50 ∧ d.getD 1 0 = 0x4B ∧
        fieldAt d 6 &&& 0x1 ≠ 0 ∧ fieldAt d 6 &&& 0x40 = 0 ∧
        30 + fieldAt d 26 + fieldAt d 28 + 12 ≤ d.length)) ∧
    (extractVerificationBytes d = some none ↔
      ¬ (100 ≤ d.length ∧ d.getD 0 0 = 0x50 ∧ d.getD 1 0 = 0x4B ∧
        fieldAt d 6 &&& 0x1 ≠ 0 ∧ fieldAt d 6 &&& 0x40 = 0 ∧
        30 + fieldAt d 26 + fieldAt d 28 + 12 ≤ d.length)) := by
  rcases extract_cases d with ⟨hf, he⟩ | ⟨hf, he⟩
  · have hf2 := hf
    unfold FastPathHeader at hf2
    rw [he]
    exact ⟨⟨fun _ => hf2, fun _ => ⟨_, rfl⟩⟩, ⟨fun h => by simp at h, fun h => absurd hf2 h⟩⟩
  · have hf2 := hf
    unfold FastPathHeader at hf2
    rw [he]
    exact ⟨⟨fun ⟨z, hz⟩ => by simp at hz, fun h => absurd h hf2⟩, ⟨fun _ => hf2, fun _ => rfl⟩⟩

/-- C7: whenever the parser returns a Verifier for an archive `d` of bytes,
its verification byte is `(mod_time >> 8) & 0xFF` for the 16-bit field at
offset 10, which is `d[11]`, and its encryption header is the 12 bytes of `d`
starting at `30 + fname_len + extra_len`. -/
theorem extract_fields (d : List Nat) (z : ZipCryptoChecker)
    (hd : ∀ b ∈ d, b < 256) (hz : extractVerificationBytes d = some (some z)) :
    z.expectedByte = (fieldAt d 10 >>> 8) &&& 0xFF ∧
    d[11]? = some z.expectedByte ∧
    z.encHeader.length = 12 ∧
    ∀ j, j < 12 → z.encHeader[j]? = d[30 + fieldAt d 26 + fieldAt d 28 + j]? ∧
      (z.encHeader[j]?).isSome = true := by
  rcases extract_cases d with ⟨hf, he⟩ | ⟨hf, he⟩
  swap
  · rw [he] at hz
    simp at hz
  rw [he] at hz
  simp only [Option.some.injEq] at hz
  subst hz
  unfold FastPathHeader at hf
  obtain ⟨h100, _, _, _, _, hlen⟩ := hf
  have h10 : d.getD 10 0 < 256 := by
    rw [List.getD_eq_getElem _ _ (by omega)]
    exact hd _ (List.getElem_mem _)
  have h11 : d.getD 11 0 < 256 := by
    rw [List.getD_eq_getElem _ _ (by omega)]
    exact hd _ (List.getElem_mem _)
  have hfield : fieldAt d 10 = 256 * d.getD 11 0 + d.getD 10 0 :=
    leUint16_of_bytes _ _ h10 h11
  have hbyte : (fieldAt d 10 >>> 8) % 256 = d.getD 11 0 := by
    rw [hfield, Nat.shiftRight_eq_div_pow]
    omega
  have hs12 : (List.take 12 (List.drop (30 + fieldAt d 26 + fieldAt d 28) d)).length = 12 := by
    simp only [List.length_take, List.length_drop]
    omega
  refine ⟨?_, ?_, hs12, fun j hj => ?_⟩
  · simp only [and_255_eq_mod]
    omega
  · simp only [and_255_eq_mod, Nat.mod_mod, hbyte]
    have hlt : 11 < d.length := by omega
    rw [Nat.mod_eq_of_lt h11, List.getElem?_eq_getElem hlt, List.getD_eq_getElem _ _ hlt]
  · constructor
    · simp only [List.getElem?_take, List.getElem?_drop, if_pos hj]
    · show ((List.take 12 (List.drop (30 + fieldAt d 26 + fieldAt d 28) d))[j]?).isSome = true
      rw [List.getElem?_eq_getElem (by rw [hs12]; exact hj)]
      rfl

set_option maxRecDepth 8000 in
/-- Witness for C7: the 100-byte sample archive, whose Verifier has the
verification byte `0x12` and the header bytes `0, 1, ..., 11`. -/
theorem extract_fields_witness :
    (∀ b ∈ sampleArchive, b < 256) ∧
    extractVerificationBytes sampleArchive = some (some
      { encHeader := [0, 1, 2, 3, 4, 5, 6, 7, 8, 9, 10, 11],
        crc32Table := crc32IEEETable, expectedByte := 0x12 }) ∧
    ((0x12 : Nat) = (fieldAt sampleArchive 10 >>> 8) &&& 0xFF ∧
    sampleArchive[11]? = some 0x12 ∧
    ([0, 1, 2, 3, 4, 5, 6, 7, 8, 9, 10, 11] : List Nat).length = 12 ∧
    ∀ j, j < 12 → ([0, 1, 2, 3, 4, 5, 6, 7, 8, 9, 10, 11] : List Nat)[j]?
        = sampleArchive[30 + fieldAt sampleArchive 26 + fieldAt sampleArchive 28 + j]? ∧
      (([0, 1, 2, 3, 4, 5, 6, 7, 8, 9, 10, 11] : List Nat)[j]?).isSome = true) :=
  ⟨by decide, by decide,
    extract_fields sampleArchive
      { encHeader := [0, 1, 2, 3, 4, 5, 6, 7, 8, 9, 10, 11],
        crc32Table := crc32IEEETable, expectedByte := 0x12 }
      (by decide) (by decide)⟩

/-- C8: on every byte sequence (empty, shorter than a local header, or with
name and extra-field lengths pointing past the end) every index and slice
access of the parser is in range: the parser never panics and returns either
a Verifier or no Verifier. -/
theorem extract_never_panics (d : List Nat) :
    ∃ r : Option ZipCryptoChecker, extractVerificationBytes d = some r := by
  rcases extract_cases d with ⟨_, he⟩ | ⟨_, he⟩
  · exact ⟨_, he⟩
  · exact ⟨_, he⟩

/-! ## The sequential sweep finds the first accepted candidate -/

@[simp] theorem publish_found (s : Shared) (a k : Nat) : (s.publish a k).found = s.found := rfl

@[simp] theorem publish_result (s : Shared) (a k : Nat) : (s.publish a k).result = s.result := rfl

@[simp] theorem publish_decoded (s : Shared) (a k : Nat) :
    (s.publish a k).decoded = s.decoded := rfl

@[simp] theorem publish_opened (s : Shared) (a k : Nat) : (s.publish a k).opened = s.opened := rfl

theorem candidates_cons (charset : List Nat) (L a b : Nat) (h : a < b) :
    candidates charset L a b = decode charset L a :: candidates charset L (a + 1) b := by
  unfold candidates
  have hb : b - a = (b - (a + 1)) + 1 := by omega
  rw [hb, List.range'_succ]
  simp

/-- One round of the worker loop on an index inside the range, with `found`
still false: either the candidate is accepted and the worker returns with
`found` set and the candidate as result, or the loop goes on with the next
index, `found` and `result` unchanged. -/
theorem workerLoop_step (c : Cracker) (stop length fuel i : Nat) (buf : List Nat)
    (la lc : Nat) (s : Shared) (hi : i < stop) (hs : s.found = false)
    (hb : buf.length = length) :
    (c.accepts (decode c.charset length i) = true ∧
      (workerLoop c stop length (fuel + 1) i buf la lc s).found = true ∧
      (workerLoop c stop length (fuel + 1) i buf la lc s).result = decode c.charset length i ∧
      (workerLoop c stop length (fuel + 1) i buf la lc s).decoded
        = s.decoded ++ [decode c.charset length i]) ∨
    (c.accepts (decode c.charset length i) = false ∧
      ∃ la2 lc2 s2,
        workerLoop c stop length (fuel + 1) i buf la lc s
          = workerLoop c stop length fuel (i + 1) (decode c.charset length i) la2 lc2 s2 ∧
        s2.found = false ∧ s2.result = s.result ∧
        s2.decoded = s.decoded ++ [decode c.charset length i]) := by
  rw [workerLoop, if_pos ⟨hi, hs⟩, decodeLoop_full _ _ _ _ hb]
  simp only [Cracker.accepts]
  by_cases hr : c.rejects (decode c.charset length i) = true
  · right
    simp only [hr, if_true, Bool.not_true, Bool.false_and, true_and]
    by_cases hm : (la + 1) % 1000 = 0
    · rw [if_pos hm]
      refine ⟨_, _, _, rfl, ?_⟩
      rw [publish_found, publish_result, publish_decoded]
      exact ⟨hs, rfl, rfl⟩
    · rw [if_neg hm]
      exact ⟨la + 1, lc + 1,
        { s with decoded := s.decoded ++ [decode c.charset length i] }, rfl, hs, rfl, rfl⟩
  · have hr2 : c.rejects (decode c.charset length i) = false := by simpa using hr
    simp only [hr2, Bool.not_false, Bool.true_and, Bool.false_eq_true, if_false]
    by_cases ht : c.tryPassword (decode c.charset length i) = true
    · left
      simp [ht]
    · right
      have ht2 : c.tryPassword (decode c.charset length i) = false := by simpa using ht
      simp only [ht2, Bool.false_eq_true, if_false, true_and]
      by_cases hm : (la + 1) % 1000 = 0
      · rw [if_pos hm]
        refine ⟨_, _, _, rfl, ?_⟩
        rw [publish_found, publish_result, publish_decoded]
        exact ⟨hs, rfl, rfl⟩
      · rw [if_neg hm]
        exact ⟨la + 1, lc + 1,
          { s with decoded := s.decoded ++ [decode c.charset length i],
                   opened := s.opened ++ [decode c.charset length i] }, rfl, hs, rfl, rfl⟩

theorem candidates_empty (charset : List Nat) (L a b : Nat) (h : b ≤ a) :
    candidates charset L a b = [] := by
  unfold candidates
  have h0 : b - a = 0 := by omega
  rw [h0]
  rfl

/-- When the loop condition fails (index past the range, or `found` set), the
worker only publishes its local counters. -/
theorem workerLoop_exit (c : Cracker) (stop length fuel i : Nat) (buf : List Nat)
    (la lc : Nat) (s : Shared) (h : ¬ (i < stop ∧ s.found = false)) :
    workerLoop c stop length fuel i buf la lc s = s.publish la lc := by
  cases fuel with
  | zero => rw [workerLoop]
  | succ fuel => rw [workerLoop, if_neg h]

theorem workerLoop_none (c : Cracker) (stop length : Nat) :
    ∀ (fuel i : Nat) (buf : List Nat) (la lc : Nat) (s : Shared),
      s.found = false → buf.length = length → stop ≤ i + fuel →
      (∀ j, i ≤ j → j < stop → c.accepts (decode c.charset length j) = false) →
      (workerLoop c stop length fuel i buf la lc s).found = false ∧
      (workerLoop c stop length fuel i buf la lc s).result = s.result ∧
      (workerLoop c stop length fuel i buf la lc s).decoded
        = s.decoded ++ candidates c.charset length i stop
  | 0, i, buf, la, lc, s, hs, _, hfuel, _ => by
    rw [workerLoop_exit c stop length 0 i buf la lc s (fun h => by omega),
      candidates_empty _ _ _ _ (by omega)]
    simp [hs]
  | fuel + 1, i, buf, la, lc, s, hs, hb, hfuel, hnone => by
    by_cases hi : i < stop
    · rcases workerLoop_step c stop length fuel i buf la lc s hi hs hb with
        ⟨hacc, _⟩ | ⟨_, la2, lc2, s2, heq, hf2, hr2, hd2⟩
      · rw [hnone i (le_refl i) hi] at hacc
        exact absurd hacc (by simp)
      · have ih := workerLoop_none c stop length fuel (i + 1) (decode c.charset length i)
          la2 lc2 s2 hf2 (length_decode _ _ _) (by omega)
          (fun j hj hjs => hnone j (by omega) hjs)
        rw [heq]
        refine ⟨ih.1, ih.2.1.trans hr2, ?_⟩
        rw [ih.2.2, hd2, candidates_cons _ _ _ _ hi]
        simp
    · rw [workerLoop_exit c stop length (fuel + 1) i buf la lc s (fun h => hi h.1),
        candidates_empty _ _ _ _ (by omega)]
      simp [hs]

theorem rangeWorker_none (c : Cracker) (start stop length : Nat) (s : Shared)
    (hctx : c.ctxOk = true) (hs : s.found = false)
    (hnone : ∀ j, start ≤ j → j < stop → c.accepts (decode c.charset length j) = false) :
    (rangeWorker c start stop length s).found = false ∧
    (rangeWorker c start stop length s).result = s.result ∧
    (rangeWorker c start stop length s).decoded
      = s.decoded ++ candidates c.charset length start stop := by
  unfold rangeWorker
  rw [if_pos hctx]
  exact workerLoop_none c stop length _ start _ 0 0 s hs (by simp) (by omega) hnone

/-- One round of the length loop with `found` false: the workers of this
length run on ranges that tile `[0, |Σ|^length)`. -/
theorem lengthLoop_succ (c : Cracker) (maxLen fuel length : Nat) (s : Shared)
    (hlen : length ≤ maxLen) (hs : s.found = false) :
    lengthLoop c maxLen (fuel + 1) length s
      = if (runWorkers c length
            (workerRanges c.workers (calculateTotal c.charset length)) s).found = true
        then runWorkers c length (workerRanges c.workers (calculateTotal c.charset length)) s
        else lengthLoop c maxLen fuel (length + 1)
          (runWorkers c length (workerRanges c.workers (calculateTotal c.charset length)) s) := by
  rw [lengthLoop, if_pos hlen]
  simp [hs]

theorem publish_attempts (s : Shared) (a k : Nat) :
    (s.publish a k).attempts = (s.attempts + a) % 18446744073709551616 := rfl

theorem publish_checked (s : Shared) (a k : Nat) :
    (s.publish a k).checked = (s.checked + k) % 18446744073709551616 := rfl

/-- One round of the worker loop on a candidate the Verifier rejects. -/
theorem workerLoop_reject_step (c : Cracker) (stop length fuel i : Nat) (buf : List Nat)
    (la lc : Nat) (s : Shared) (hi : i < stop) (hs : s.found = false)
    (hb : buf.length = length) (hr : c.rejects (decode c.charset length i) = true) :
    workerLoop c stop length (fuel + 1) i buf la lc s
      = if (la + 1) % 1000 = 0 then
          workerLoop c stop length fuel (i + 1) (decode c.charset length i) 0 (lc + 1)
            (({ s with decoded := s.decoded ++ [decode c.charset length i] } : Shared).publish
              1000 1000)
        else
          workerLoop c stop length fuel (i + 1) (decode c.charset length i) (la + 1) (lc + 1)
            { s with decoded := s.decoded ++ [decode c.charset length i] } := by
  rw [workerLoop, if_pos ⟨hi, hs⟩, decodeLoop_full _ _ _ _ hb]
  simp only [hr, if_true]

/-- The counters of a worker all of whose candidates are rejected by the
Verifier: `attempts` grows by the number of candidates, `checked` by that
number plus 1000 for every full batch of 1000 rejections, and `tryPassword`
is never called. -/
theorem workerLoop_reject_counters (c : Cracker) (stop length : Nat) :
    ∀ (fuel i : Nat) (buf : List Nat) (la lc : Nat) (s : Shared),
      s.found = false → buf.length = length → stop ≤ i + fuel → la < 1000 →
      (∀ j, i ≤ j → j < stop → c.rejects (decode c.charset length j) = true) →
      (workerLoop c stop length fuel i buf la lc s).attempts
        = (s.attempts + la + (stop - i)) % 18446744073709551616 ∧
      (workerLoop c stop length fuel i buf la lc s).checked
        = (s.checked + lc + (stop - i) + 1000 * ((la + (stop - i)) / 1000))
            % 18446744073709551616 ∧
      (workerLoop c stop length fuel i buf la lc s).opened = s.opened
  | 0, i, buf, la, lc, s, _, _, hfuel, hla, _ => by
    rw [workerLoop_exit c stop length 0 i buf la lc s (fun h => by omega),
      publish_attempts, publish_checked, publish_opened]
    refine ⟨?_, ?_, rfl⟩
    · congr 1
      omega
    · congr 1
      omega
  | fuel + 1, i, buf, la, lc, s, hs, hb, hfuel, hla, hrej => by
    by_cases hi : i < stop
    · rw [workerLoop_reject_step c stop length fuel i buf la lc s hi hs hb
        (hrej i (le_refl i) hi)]
      by_cases hm : (la + 1) % 1000 = 0
      · rw [if_pos hm]
        have ih := workerLoop_reject_counters c stop length fuel (i + 1)
          (decode c.charset length i) 0 (lc + 1)
          (({ s with decoded := s.decoded ++ [decode c.charset length i] } : Shared).publish
            1000 1000)
          (by rw [publish_found]; exact hs) (length_decode _ _ _) (by omega) (by omega)
          (fun j hj hjs => hrej j (by omega) hjs)
        rw [publish_attempts, publish_checked, publish_opened] at ih
        refine ⟨?_, ?_, ih.2.2⟩
        · rw [ih.1]
          show ((s.attempts + 1000) % 18446744073709551616 + 0 + (stop - (i + 1)))
            % 18446744073709551616 = _
          omega
        · rw [ih.2.1]
          show ((s.checked + 1000) % 18446744073709551616 + (lc + 1) + (stop - (i + 1))
            + 1000 * ((0 + (stop - (i + 1))) / 1000)) % 18446744073709551616 = _
          omega
      · rw [if_neg hm]
        have ih := workerLoop_reject_counters c stop length fuel (i + 1)
          (decode c.charset length i) (la + 1) (lc + 1)
          { s with decoded := s.decoded ++ [decode c.charset length i] }
          hs (length_decode _ _ _) (by omega) (by omega)
          (fun j hj hjs => hrej j (by omega) hjs)
        refine ⟨?_, ?_, ih.2.2⟩
        · rw [ih.1]
          show (s.attempts + (la + 1) + (stop - (i + 1))) % 18446744073709551616 = _
          congr 1
          omega
        · rw [ih.2.1]
          show (s.checked + (lc + 1) + (stop - (i + 1))
            + 1000 * ((la + 1 + (stop - (i + 1))) / 1000)) % 18446744073709551616 = _
          congr 1
          omega
    · rw [workerLoop_exit c stop length (fuel + 1) i buf la lc s (fun h => hi h.1),
        publish_attempts, publish_checked, publish_opened]
      refine ⟨?_, ?_, rfl⟩
      · congr 1
        omega
      · congr 1
        omega

theorem length_candidates (charset : List Nat) (L a b : Nat) :
    (candidates charset L a b).length = b - a := by
  simp [candidates]

/-- A whole worker run in which the Verifier rejects every candidate. -/
theorem rangeWorker_reject (c : Cracker) (start stop length : Nat) (s : Shared)
    (hctx : c.ctxOk = true) (hs : s.found = false)
    (hrej : ∀ j, start ≤ j → j < stop → c.rejects (decode c.charset length j) = true) :
    (rangeWorker c start stop length s).found = false ∧
    (rangeWorker c start stop length s).attempts
      = (s.attempts + (stop - start)) % 18446744073709551616 ∧
    (rangeWorker c start stop length s).checked
      = (s.checked + (stop - start) + 1000 * ((stop - start) / 1000)) % 18446744073709551616 ∧
    (rangeWorker c start stop length s).opened = s.opened ∧
    (rangeWorker c start stop length s).decoded
      = s.decoded ++ candidates c.charset length start stop := by
  have hnone := rangeWorker_none c start stop length s hctx hs
    (fun j hj hjs => by simp [Cracker.accepts, hrej j hj hjs])
  have hrw : rangeWorker c start stop length s
      = workerLoop c stop length (stop - start) start (List.replicate length 0) 0 0 s := by
    unfold rangeWorker
    rw [if_pos hctx]
  have h := workerLoop_reject_counters c stop length (stop - start) start
    (List.replicate length 0) 0 0 s hs (by simp) (by omega) (by omega) hrej
  rw [← hrw] at h
  refine ⟨hnone.1, ?_, ?_, h.2.2, hnone.2.2⟩
  · rw [h.1, Nat.add_zero]
  · rw [h.2.1, Nat.add_zero, Nat.zero_add]

theorem runWorkers_single (c : Cracker) (length a b : Nat) (s : Shared) :
    runWorkers c length [(a, b)] s = rangeWorker c a b length s := rfl

theorem digitsFastCracker_rejects (w : List Nat) : digitsFastCracker.rejects w = true := rfl

/-- C9, the code at a failing input: in the fast path a worker whose 1000
candidates are all rejected by the Verifier decodes 1000 candidates but adds
2000 to `checked`; the exhausted single-worker sweep of the digits over the
lengths 1 to 3 ends with `checked = 2110`, not `10 + 100 + 1000`. -/
theorem checked_overcount_fast_path :
    (rangeWorker digitsFastCracker 0 1000 3 Shared.init).decoded.length = 1000 ∧
    (rangeWorker digitsFastCracker 0 1000 3 Shared.init).checked = 2000 ∧
    (lengthSweep digitsFastCracker 1 3 Shared.init).found = false ∧
    (lengthSweep digitsFastCracker 1 3 Shared.init).decoded.length = 10 + 100 + 1000 ∧
    (lengthSweep digitsFastCracker 1 3 Shared.init).checked = 2110 := by
  have hw := rangeWorker_reject digitsFastCracker 0 1000 3 Shared.init rfl rfl
    (fun j _ _ => digitsFastCracker_rejects _)
  have h1 := rangeWorker_reject digitsFastCracker 0 10 1 Shared.init rfl rfl
    (fun j _ _ => digitsFastCracker_rejects _)
  have h2 := rangeWorker_reject digitsFastCracker 0 100 2 _ rfl h1.1
    (fun j _ _ => digitsFastCracker_rejects _)
  have h3 := rangeWorker_reject digitsFastCracker 0 1000 3 _ rfl h2.1
    (fun j _ _ => digitsFastCracker_rejects _)
  have r1 : workerRanges digitsFastCracker.workers (calculateTotal digitsFastCracker.charset 1)
      = [(0, 10)] := by decide
  have r2 : workerRanges digitsFastCracker.workers (calculateTotal digitsFastCracker.charset 2)
      = [(0, 100)] := by decide
  have r3 : workerRanges digitsFastCracker.workers (calculateTotal digitsFastCracker.charset 3)
      = [(0, 1000)] := by decide
  have hsweep : lengthSweep digitsFastCracker 1 3 Shared.init
      = rangeWorker digitsFastCracker 0 1000 3
          (rangeWorker digitsFastCracker 0 100 2
            (rangeWorker digitsFastCracker 0 10 1 Shared.init)) := by
    unfold lengthSweep
    rw [lengthLoop_succ _ _ _ _ _ (by decide) rfl, r1, runWorkers_single,
      if_neg (fun h => by rw [h1.1] at h; exact Bool.false_ne_true h),
      lengthLoop_succ _ _ _ _ _ (by decide) h1.1, r2, runWorkers_single,
      if_neg (fun h => by rw [h2.1] at h; exact Bool.false_ne_true h),
      lengthLoop_succ _ _ _ _ _ (by decide) h2.1, r3, runWorkers_single,
      if_neg (fun h => by rw [h3.1] at h; exact Bool.false_ne_true h), lengthLoop]
  refine ⟨?_, ?_, ?_, ?_, ?_⟩
  · rw [hw.2.2.2.2, List.length_append, length_candidates]
    rfl
  · rw [hw.2.2.1]
    rfl
  · rw [hsweep]
    exact h3.1
  · rw [hsweep, h3.2.2.2.2, h2.2.2.2.2, h1.2.2.2.2]
    simp only [List.length_append, length_candidates]
    rfl
  · rw [hsweep, h3.2.2.1, h2.2.2.1, h1.2.2.1]
    rfl

/-- C10, the code at a failing input: in the fast path a worker whose single
candidate is rejected by the Verifier never calls `tryPassword`, yet it adds 1
to `attempts`; over 1000 rejected candidates it adds 1000. -/
theorem attempts_counts_rejected :
    (rangeWorker digitsFastCracker 0 1 1 Shared.init).decoded = [[48]] ∧
    (rangeWorker digitsFastCracker 0 1 1 Shared.init).opened = [] ∧
    (rangeWorker digitsFastCracker 0 1 1 Shared.init).attempts = 1 ∧
    (rangeWorker digitsFastCracker 0 1000 3 Shared.init).opened = [] ∧
    (rangeWorker digitsFastCracker 0 1000 3 Shared.init).attempts = 1000 := by
  have hw := rangeWorker_reject digitsFastCracker 0 1000 3 Shared.init rfl rfl
    (fun j _ _ => digitsFastCracker_rejects _)
  refine ⟨by decide, by decide, by decide, ?_, ?_⟩
  · rw [hw.2.2.2.1]
    rfl
  · rw [hw.2.1]
    rfl

/-! ## The keystream byte depends on the low 16 bits of `key2` only -/

theorem or_mod_two_pow (a b n : Nat) : (a ||| b) % 2 ^ n = (a % 2 ^ n) ||| (b % 2 ^ n) := by
  apply Nat.eq_of_testBit_eq
  intro i
  simp only [Nat.testBit_mod_two_pow, Nat.testBit_or]
  by_cases hi : i < n <;> simp [hi]

theorem xor_mod_two_pow (a b n : Nat) : (a ^^^ b) % 2 ^ n = (a % 2 ^ n) ^^^ (b % 2 ^ n) := by
  apply Nat.eq_of_testBit_eq
  intro i
  simp only [Nat.testBit_mod_two_pow, Nat.testBit_xor]
  by_cases hi : i < n <;> simp [hi]

/-- C20: the keystream byte `checkPassword` computes in 32-bit wrapping
arithmetic equals the canonical PKZIP 16-bit form computed from the low 16
bits of `key2` alone, for every value of `key2`. -/
theorem streamByte_eq_pkzip16 (k2 : Nat) : streamByte k2 = pkzipStreamByte16 k2 := by
  have h16 : (0xFFFF : Nat) = 2 ^ 16 - 1 := by norm_num
  have ht : (k2 ||| 2) % 2 ^ 16 = (k2 % 2 ^ 16) ||| 2 := by
    rw [or_mod_two_pow]
    norm_num
  have hx : ((k2 ||| 2) ^^^ 1) % 2 ^ 16 = (((k2 % 2 ^ 16) ||| 2) ^^^ 1) := by
    rw [xor_mod_two_pow, ht]
    norm_num
  have hprod : ((k2 ||| 2) * ((k2 ||| 2) ^^^ 1)) % 2 ^ 16
      = ((((k2 % 2 ^ 16) ||| 2) * (((k2 % 2 ^ 16) ||| 2) ^^^ 1))) % 2 ^ 16 := by
    rw [Nat.mul_mod, ht, hx]
  simp only [streamByte, pkzipStreamByte16, and_255_eq_mod, Nat.shiftRight_eq_div_pow, h16,
    Nat.and_pow_two_sub_one_eq_mod]
  generalize (k2 ||| 2) * ((k2 ||| 2) ^^^ 1) = x at hprod
  generalize ((k2 % 2 ^ 16) ||| 2) * (((k2 % 2 ^ 16) ||| 2) ^^^ 1) = y at hprod
  omega

/-! ## The decoder is the inverse of the encoder -/

theorem encode_append (charset w : List Nat) (c : Nat) :
    encode charset (w ++ [c]) = encode charset w * charset.length + charset.indexOf c := by
  unfold encode
  have hlen : (w ++ [c]).length = w.length + 1 := by simp
  rw [hlen, Finset.sum_range_succ, Finset.sum_mul]
  have hlast : (w ++ [c]).getD w.length 0 = c := by
    rw [List.getD_append_right _ _ _ _ (le_refl _)]
    simp
  have hpow : w.length + 1 - 1 - w.length = 0 := by omega
  rw [hlast, hpow, pow_zero, Nat.mul_one]
  congr 1
  apply Finset.sum_congr rfl
  intro j hj
  have hj2 : j < w.length := Finset.mem_range.mp hj
  have he : w.length + 1 - 1 - j = (w.length - 1 - j) + 1 := by omega
  rw [List.getD_append _ _ _ _ hj2, he, pow_succ, Nat.mul_assoc]

theorem encode_decode (charset : List Nat) (hnd : charset.Nodup) :
    ∀ (L i : Nat), i < charset.length ^ L → encode charset (decode charset L i) = i
  | 0, i, hi => by
    simp at hi
    subst hi
    simp [decode_zero, encode]
  | L + 1, i, hi => by
    have hpos : 0 < charset.length := by
      rcases Nat.eq_zero_or_pos charset.length with h0 | h0
      · rw [h0] at hi
        simp at hi
      · exact h0
    have hd : i / charset.length < charset.length ^ L := by
      rw [Nat.div_lt_iff_lt_mul hpos]
      simpa [pow_succ] using hi
    have hm : i % charset.length < charset.length := Nat.mod_lt _ hpos
    rw [decode_succ, encode_append, encode_decode charset hnd L _ hd,
      List.getD_eq_getElem _ _ hm, List.indexOf_getElem hnd _ hm]
    exact Nat.div_add_mod' i charset.length

/-- C13: for a non-empty duplicate-free alphabet and a length whose
combination count fits in 64 bits, the decoding loop of `rangeWorker` is the
inverse of `encode`: `encode (decode i) = i` for every index below `|Σ|^L`, and
`decode (encode w) = w` (with `encode w` below `|Σ|^L`) for every word of
length `L` over the alphabet. -/
theorem decode_encode_inverse (charset : List Nat) (L : Nat) (hne : charset ≠ [])
    (hnd : charset.Nodup) (hfit : charset.length ^ L < 2 ^ 64) :
    (∀ i, i < charset.length ^ L → i < 2 ^ 64 ∧ encode charset (decode charset L i) = i) ∧
    (∀ w : List Nat, w.length = L → (∀ c ∈ w, c ∈ charset) →
      encode charset w < charset.length ^ L ∧ decode charset L (encode charset w) = w) := by
  have hpos : 0 < charset.length := List.length_pos.mpr hne
  refine ⟨fun i hi => ⟨lt_trans hi hfit, encode_decode charset hnd L i hi⟩, fun w hw hmem => ?_⟩
  obtain ⟨i, hi, hiw⟩ := decode_surjective charset L w hw hmem
  have he : encode charset w = i := by
    rw [← hiw]
    exact encode_decode charset hnd L i hi
  rw [he]
  exact ⟨hi, hiw⟩

/-- Witness for C13: the alphabet `ab` at length 2, where index 2 is the word
`ba`. -/
theorem decode_encode_inverse_witness :
    (([97, 98] : List Nat) ≠ [] ∧ ([97, 98] : List Nat).Nodup ∧
      ([97, 98] : List Nat).length ^ 2 < 2 ^ 64) ∧
    decode [97, 98] 2 2 = [98, 97] ∧ encode [97, 98] [98, 97] = 2 ∧
    ((∀ i, i < ([97, 98] : List Nat).length ^ 2 →
        i < 2 ^ 64 ∧ encode [97, 98] (decode [97, 98] 2 i) = i) ∧
    (∀ w : List Nat, w.length = 2 → (∀ c ∈ w, c ∈ ([97, 98] : List Nat)) →
      encode [97, 98] w < ([97, 98] : List Nat).length ^ 2 ∧
      decode [97, 98] 2 (encode [97, 98] w) = w)) :=
  ⟨⟨by decide, by decide, by decide⟩, by decide, by decide,
    decode_encode_inverse [97, 98] 2 (by decide) (by decide) (by decide)⟩

/-! ## How many workers are launched -/

theorem Tiles.nonempty : ∀ (rs : List (Nat × Nat)) (a T : Nat), Tiles a T rs →
    ∀ r ∈ rs, r.1 < r.2
  | [], _, _, _, r, hr => by simp at hr
  | q :: rs, a, T, h, r, hr => by
    simp only [Tiles] at h
    obtain ⟨h1, h2, _, h4⟩ := h
    rcases List.mem_cons.mp hr with hq | hq
    · rw [hq]
      omega
    · exact Tiles.nonempty rs q.2 T h4 r hq

theorem launchLoop_unit (W T : Nat) (hTW : T < W) (hT : T < 18446744073709551616) :
    ∀ (fuel i : Nat), i + fuel = W → i ≤ T →
      launchLoop W T 1 fuel i = (List.range' i (T - i)).map (fun k => (k, k + 1))
  | 0, i, hi, hle => by omega
  | fuel + 1, i, hi, hle => by
    have hiW : i < W := by omega
    have hstart : (i * 1) % 18446744073709551616 = i := by
      rw [Nat.mul_one]
      exact Nat.mod_eq_of_lt (by omega)
    rw [launchLoop, if_pos hiW]
    simp only [hstart]
    by_cases hge : i ≥ T
    · have h0 : T - i = 0 := by omega
      rw [if_pos hge, h0]
      rfl
    · have hlast : ¬ i = W - 1 := by omega
      have hstop : (i + 1) % 18446744073709551616 = i + 1 := Nat.mod_eq_of_lt (by omega)
      have hr : T - i = (T - (i + 1)) + 1 := by omega
      rw [if_neg hge, if_neg hlast, hstop,
        launchLoop_unit W T hTW hT fuel (i + 1) (by omega) (by omega), hr, List.range'_succ]
      rfl

theorem launchLoop_length (W T c : Nat) (hc : 1 ≤ c) (hcT : W * c ≤ T)
    (hT : T < 18446744073709551616) :
    ∀ (fuel i : Nat), i + fuel = W → (launchLoop W T c fuel i).length = fuel
  | 0, _, _ => by simp [launchLoop]
  | fuel + 1, i, hi => by
    have hiW : i < W := by omega
    have hlt : i * c < T := by
      have h1 : (i + 1) * c ≤ W * c := Nat.mul_le_mul_right _ (by omega)
      have h2 : (i + 1) * c = i * c + c := by ring
      omega
    have hstart : (i * c) % 18446744073709551616 = i * c := Nat.mod_eq_of_lt (by omega)
    rw [launchLoop, if_pos hiW]
    simp only [hstart]
    rw [if_neg (by omega), List.length_cons,
      launchLoop_length W T c hc hcT hT fuel (i + 1) (by omega)]

/-- C14: for `W ≥ 1` workers and a (64-bit) total `T ≥ 1`, every launched
worker gets a non-empty range; when `T < W` exactly `T` workers are launched
and worker `k` gets the single index `k`; when `T ≥ W` exactly `W` workers are
launched. -/
theorem workerRanges_count (W T : Nat) (hW : 1 ≤ W) (hT : 1 ≤ T) (hT64 : T < 2 ^ 64) :
    (∀ r ∈ workerRanges W T, r.1 < r.2) ∧
    (T < W → workerRanges W T = (List.range T).map (fun k => (k, k + 1))) ∧
    (W ≤ T → (workerRanges W T).length = W) := by
  have h64 : T < 18446744073709551616 := by simpa using hT64
  refine ⟨Tiles.nonempty _ 0 T (workerRanges_tiles W T hW h64), fun hlt => ?_, fun hle => ?_⟩
  · have h0 : T / W = 0 := Nat.div_eq_of_lt hlt
    unfold workerRanges
    simp only [h0, if_true]
    rw [launchLoop_unit W T hlt h64 W 0 (by omega) (by omega), List.range_eq_range']
    rfl
  · have hpos : 0 < T / W := Nat.div_pos hle (by omega)
    unfold workerRanges
    simp only [if_neg (Nat.pos_iff_ne_zero.mp hpos)]
    exact launchLoop_length W T (T / W) hpos (Nat.mul_div_le T W) h64 W 0 (by omega)

/-- Witness for C14: eight workers on five indices launch five single-index
workers; three workers on ten indices launch three. -/
theorem workerRanges_count_witness :
    (1 ≤ 8 ∧ 1 ≤ 5 ∧ 5 < 2 ^ 64) ∧
    workerRanges 8 5 = [(0, 1), (1, 2), (2, 3), (3, 4), (4, 5)] ∧
    workerRanges 3 10 = [(0, 3), (3, 6), (6, 10)] ∧
    ((∀ r ∈ workerRanges 8 5, r.1 < r.2) ∧
    (5 < 8 → workerRanges 8 5 = (List.range 5).map (fun k => (k, k + 1))) ∧
    (8 ≤ 5 → (workerRanges 8 5).length = 8)) :=
  ⟨by decide, by decide, by decide, workerRanges_count 8 5 (by decide) (by decide) (by decide)⟩

/-! ## The enumeration order is lexicographic -/

theorem lex_append_of_lex {a b : List Nat} (c d : List Nat) (hlen : a.length = b.length)
    (h : List.Lex (· < ·) a b) : List.Lex (· < ·) (a ++ c) (b ++ d) := by
  induction h with
  | nil => simp at hlen
  | cons _ ih => exact List.Lex.cons (ih (by simpa using hlen))
  | rel hr => exact List.Lex.rel hr

theorem lex_append_last (a : List Nat) {x y : Nat} (h : x < y) :
    List.Lex (· < ·) (a ++ [x]) (a ++ [y]) := by
  induction a with
  | nil => exact List.Lex.rel h
  | cons _ _ ih => exact List.Lex.cons ih

theorem decode_lex (charset : List Nat) (hnd : charset.Nodup) :
    ∀ (L i j : Nat), i < j → j < charset.length ^ L →
      List.Lex (· < ·) ((decode charset L i).map (fun c => charset.indexOf c))
        ((decode charset L j).map (fun c => charset.indexOf c))
  | 0, i, j, hij, hj => by
    simp at hj
    omega
  | L + 1, i, j, hij, hj => by
    have hpos : 0 < charset.length := by
      rcases Nat.eq_zero_or_pos charset.length with h0 | h0
      · rw [h0] at hj
        simp at hj
      · exact h0
    have hdj : j / charset.length < charset.length ^ L := by
      rw [Nat.div_lt_iff_lt_mul hpos]
      simpa [pow_succ] using hj
    have hmi : i % charset.length < charset.length := Nat.mod_lt _ hpos
    have hmj : j % charset.length < charset.length := Nat.mod_lt _ hpos
    have hle : i / charset.length ≤ j / charset.length := Nat.div_le_div_right (by omega)
    rw [decode_succ, decode_succ, List.map_append, List.map_append]
    rcases Nat.lt_or_eq_of_le hle with hlt | heq
    · exact lex_append_of_lex _ _ (by simp [length_decode])
        (decode_lex charset hnd L _ _ hlt hdj)
    · have hmod : i % charset.length < j % charset.length := by
        have h1 := Nat.div_add_mod i charset.length
        have h2 := Nat.div_add_mod j charset.length
        rw [heq] at h1
        omega
      rw [heq]
      simp only [List.map_cons, List.map_nil]
      rw [List.getD_eq_getElem _ _ hmi, List.getD_eq_getElem _ _ hmj,
        List.indexOf_getElem hnd _ hmi, List.indexOf_getElem hnd _ hmj]
      exact lex_append_last _ hmod

theorem decode_first (charset : List Nat) :
    ∀ L : Nat, decode charset L 0 = List.replicate L (charset.getD 0 0)
  | 0 => by simp [decode_zero]
  | L + 1 => by
    rw [decode_succ, Nat.zero_div, Nat.zero_mod, decode_first charset L]
    exact (List.replicate_succ' _ _).symm

theorem decode_last (charset : List Nat) (hne : charset ≠ []) :
    ∀ L : Nat, decode charset L (charset.length ^ L - 1)
      = List.replicate L (charset.getD (charset.length - 1) 0)
  | 0 => by simp [decode_zero]
  | L + 1 => by
    have hpos : 0 < charset.length := List.length_pos.mpr hne
    obtain ⟨m, hm⟩ : ∃ m, charset.length ^ L = m + 1 :=
      ⟨charset.length ^ L - 1, by have := Nat.pow_pos (n := L) hpos; omega⟩
    obtain ⟨q, hq⟩ : ∃ q, charset.length = q + 1 := ⟨charset.length - 1, by omega⟩
    have hidx : charset.length ^ (L + 1) - 1 = m * charset.length + q := by
      rw [pow_succ, hm, Nat.add_mul, Nat.one_mul]
      omega
    have hdiv : (m * charset.length + q) / charset.length = m := by
      rw [Nat.add_comm, Nat.add_mul_div_right _ _ hpos, Nat.div_eq_of_lt (by omega)]
      simp
    have hmod : (m * charset.length + q) % charset.length = q := by
      rw [Nat.add_comm, Nat.add_mul_mod_self_right, Nat.mod_eq_of_lt (by omega)]
    have hm2 : m = charset.length ^ L - 1 := by omega
    have hq2 : q = charset.length - 1 := by omega
    rw [decode_succ, hidx, hdiv, hmod, hm2, decode_last charset hne L, hq2]
    exact (List.replicate_succ' _ _).symm

/-- C17: for a non-empty duplicate-free alphabet and a length whose combination
count fits in 64 bits, the word decoded from `i` is strictly below the word
decoded from `j` in the lexicographic order on alphabet positions whenever
`i < j < |Σ|^L`; index 0 decodes to `L` copies of the first character and index
`|Σ|^L - 1` to `L` copies of the last. -/
theorem decode_strictMono (charset : List Nat) (L : Nat) (hne : charset ≠ [])
    (hnd : charset.Nodup) (hfit : charset.length ^ L < 2 ^ 64) :
    (∀ i j, i < j → j < charset.length ^ L →
      j < 2 ^ 64 ∧
      List.Lex (· < ·) ((decode charset L i).map (fun c => charset.indexOf c))
        ((decode charset L j).map (fun c => charset.indexOf c))) ∧
    decode charset L 0 = List.replicate L (charset.getD 0 0) ∧
    decode charset L (charset.length ^ L - 1)
      = List.replicate L (charset.getD (charset.length - 1) 0) :=
  ⟨fun i j hij hj => ⟨lt_trans hj hfit, decode_lex charset hnd L i j hij hj⟩,
    decode_first charset L, decode_last charset hne L⟩

/-- Witness for C17: over `a-z` at length 4 the last index decodes to `zzzz`,
and over `0-9` at length 5 index 12345 decodes to `12345`. -/
theorem decode_strictMono_witness :
    (getCharset "lower" ≠ [] ∧ (getCharset "lower").Nodup ∧
      (getCharset "lower").length ^ 4 < 2 ^ 64) ∧
    decode (getCharset "lower") 4 (26 ^ 4 - 1) = bytesOf "zzzz" ∧
    decode (getCharset "digits") 5 12345 = bytesOf "12345" ∧
    ((∀ i j, i < j → j < (getCharset "lower").length ^ 4 →
      j < 2 ^ 64 ∧
      List.Lex (· < ·)
        ((decode (getCharset "lower") 4 i).map (fun c => (getCharset "lower").indexOf c))
        ((decode (getCharset "lower") 4 j).map (fun c => (getCharset "lower").indexOf c))) ∧
    decode (getCharset "lower") 4 0 = List.replicate 4 ((getCharset "lower").getD 0 0) ∧
    decode (getCharset "lower") 4 ((getCharset "lower").length ^ 4 - 1)
      = List.replicate 4 ((getCharset "lower").getD ((getCharset "lower").length - 1) 0)) :=
  ⟨⟨by decide, by decide, by decide⟩, by decide, by decide,
    decode_strictMono (getCharset "lower") 4 (by decide) (by decide) (by decide)⟩

/-! ## The preset `all` -/

/-- C18, counterexample: the alphabet `getCharset` returns for the preset `all`
has 88 characters, not 89. -/
theorem getCharset_all_length :
    (getCharset "all").length = 88 ∧ (getCharset "all").length ≠ 89 := by
  decide

/-- C18, amended: the alphabet of the preset `all` has exactly 88 characters;
for it `|Σ|^L` fits in 64 bits for every `L ≤ 9`, where `calculateTotal` returns
the exact count, and does not fit for any `L ≥ 10`; at `L = 10` `calculateTotal`
returns the wrapped value. -/
theorem getCharset_all_overflow :
    (getCharset "all").length = 88 ∧
    (∀ L, L ≤ 9 → (getCharset "all").length ^ L < 2 ^ 64 ∧
      calculateTotal (getCharset "all") L = (getCharset "all").length ^ L) ∧
    (∀ L, 10 ≤ L → ¬ (getCharset "all").length ^ L < 2 ^ 64) ∧
    calculateTotal (getCharset "all") 10 ≠ (getCharset "all").length ^ 10 := by
  have hlen : (getCharset "all").length = 88 := by decide
  have h9 : (88 : Nat) ^ 9 < 18446744073709551616 := by norm_num
  have h10 : ¬ ((88 : Nat) ^ 10 < 18446744073709551616) := by norm_num
  have h64 : (2 : Nat) ^ 64 = 18446744073709551616 := by norm_num
  refine ⟨hlen, fun L hL => ?_, fun L hL hlt => ?_, ?_⟩
  · have hfit : (getCharset "all").length ^ L < 18446744073709551616 := by
      rw [hlen]
      exact lt_of_le_of_lt (Nat.pow_le_pow_right (by norm_num) hL) h9
    exact ⟨by rw [h64]; exact hfit, calculateTotal_of_fit _ _ hfit⟩
  · rw [hlen, h64] at hlt
    exact h10 (lt_of_le_of_lt (Nat.pow_le_pow_right (by norm_num) hL) hlt)
  · rw [calculateTotal_eq, hlen]
    norm_num

/-! ## The verifier never rejects the password the header was encrypted with -/

theorem specStreamByte_lt (k2 : Nat) : specStreamByte k2 < 256 := by
  rw [← streamByte_eq_spec]
  exact streamByte_lt k2

theorem specDecryptFrom_encrypt (P : List Nat) (k : Keys) :
    specDecryptFrom k (specEncryptFrom k P) = P := by
  induction P generalizing k with
  | nil => rfl
  | cons b bs ih =>
    have hx : b ^^^ specStreamByte k.key2 ^^^ specStreamByte k.key2 = b := by
      rw [Nat.xor_assoc, Nat.xor_self, Nat.xor_zero]
    simp only [specEncryptFrom, specDecryptFrom, hx, ih]

theorem length_specEncryptFrom (P : List Nat) (k : Keys) :
    (specEncryptFrom k P).length = P.length := by
  induction P generalizing k with
  | nil => rfl
  | cons b bs ih => simp [specEncryptFrom, ih]

theorem specEncryptFrom_bytes (P : List Nat) (hP : ∀ b ∈ P, b < 256) (k : Keys) :
    ∀ c ∈ specEncryptFrom k P, c < 256 := by
  induction P generalizing k with
  | nil => intro c hc; simp [specEncryptFrom] at hc
  | cons b bs ih =>
    intro c hc
    simp only [specEncryptFrom, List.mem_cons] at hc
    rcases hc with hc | hc
    · rw [hc]
      have := @Nat.xor_lt_two_pow b (specStreamByte k.key2) 8
        (by simpa using hP b (by simp)) (by simpa using specStreamByte_lt k.key2)
      simpa using this
    · exact ih (fun x hx => hP x (by simp [hx])) _ c hc

/-- The byte `checkPassword` compares with the expected byte is the twelfth
byte of the reference decryption of the header. -/
theorem twelfth_byte (H p : List Nat) (hlen : H.length = 12) (hH : ∀ b ∈ H, b < 256)
    (hp : ∀ b ∈ p, b < 256) :
    (specDecrypt H p)[11]?
      = some (streamByte (headerKeys crc32IEEETable H (passwordKeys crc32IEEETable p)).key2
          ^^^ H.getD 11 0) := by
  have h11 : 11 < H.length := by omega
  have hsplit : H = H.take 11 ++ [H[11]] := by
    have h := List.take_succ (l := H) (n := 11)
    rw [List.getElem?_eq_getElem h11] at h
    have hall : H.take 12 = H := List.take_of_length_le (by omega)
    rw [hall] at h
    simpa using h
  rw [passwordKeys_eq_spec p hp, headerKeys_eq_spec H _ (by omega) hH, streamByte_eq_spec,
    List.getD_eq_getElem _ _ h11, Nat.xor_comm]
  unfold specDecrypt
  conv_lhs => rw [hsplit]
  rw [specDecryptFrom_append]
  have hl : (specDecryptFrom (specInitKeys p) (H.take 11)).length = 11 := by
    rw [length_specDecryptFrom]
    simp
    omega
  rw [List.getElem?_append_right (by omega), hl]
  simp [specDecryptFrom]

/-- C16: if `H` is the ZipCrypto encryption of a 12-byte plaintext header `P`
under the password `p` and `v = P[11]`, the Verifier built from `(H, v)`
answers `checkPassword p = true`, so a worker in the fast path does not reject
`p` and goes on to the Adapter. -/
theorem checkPassword_accepts_true_password (P p : List Nat) (hlen : P.length = 12)
    (hP : ∀ b ∈ P, b < 256) (hp : ∀ b ∈ p, b < 256) :
    checkPassword
      { encHeader := specEncrypt P p, crc32Table := crc32IEEETable,
        expectedByte := P.getD 11 0 } p = true ∧
    ∀ c : Cracker,
      c.verifier = some (checkPassword
        { encHeader := specEncrypt P p, crc32Table := crc32IEEETable,
          expectedByte := P.getD 11 0 }) →
      c.rejects p = false := by
  have hHlen : (specEncrypt P p).length = 12 := by
    unfold specEncrypt
    rw [length_specEncryptFrom, hlen]
  have hHb : ∀ b ∈ specEncrypt P p, b < 256 := specEncryptFrom_bytes P hP _
  have h12 := twelfth_byte (specEncrypt P p) p hHlen hHb hp
  have hdec : specDecrypt (specEncrypt P p) p = P := specDecryptFrom_encrypt P _
  rw [hdec, List.getElem?_eq_getElem (by omega : 11 < P.length)] at h12
  have hcheck : checkPassword
      { encHeader := specEncrypt P p, crc32Table := crc32IEEETable,
        expectedByte := P.getD 11 0 } p = true := by
    simp only [checkPassword, decide_eq_true_eq]
    rw [List.getD_eq_getElem P 0 (by omega : 11 < P.length)]
    exact (Option.some.inj h12).symm
  refine ⟨hcheck, fun c hc => ?_⟩
  simp only [Cracker.rejects, hc, hcheck, Bool.not_true]

/-- Witness for C16: the all-zero plaintext header under the password with
bytes 1, 2. -/
theorem checkPassword_accepts_true_password_witness :
    ((List.replicate 12 0).length = 12 ∧ (∀ b ∈ List.replicate 12 0, b < 256) ∧
      (∀ b ∈ ([1, 2] : List Nat), b < 256)) ∧
    (checkPassword
      { encHeader := specEncrypt (List.replicate 12 0) [1, 2], crc32Table := crc32IEEETable,
        expectedByte := (List.replicate 12 0).getD 11 0 } [1, 2] = true ∧
    ∀ c : Cracker,
      c.verifier = some (checkPassword
        { encHeader := specEncrypt (List.replicate 12 0) [1, 2], crc32Table := crc32IEEETable,
          expectedByte := (List.replicate 12 0).getD 11 0 }) →
      c.rejects [1, 2] = false) :=
  ⟨⟨by decide, by decide, by decide⟩,
    checkPassword_accepts_true_password (List.replicate 12 0) [1, 2] (by decide) (by decide)
      (by decide)⟩

/-! ## The progress counters in the slow path -/

theorem rejects_of_slow (c : Cracker) (hslow : c.verifier = none) (w : List Nat) :
    c.rejects w = false := by
  simp [Cracker.rejects, hslow]

/-- One round of the worker loop on a candidate the Verifier does not reject
(or in the slow path). -/
theorem workerLoop_open_step (c : Cracker) (stop length fuel i : Nat) (buf : List Nat)
    (la lc : Nat) (s : Shared) (hi : i < stop) (hs : s.found = false)
    (hb : buf.length = length) (hr : c.rejects (decode c.charset length i) = false) :
    workerLoop c stop length (fuel + 1) i buf la lc s
      = if c.tryPassword (decode c.charset length i) = true then
          ({ s with decoded := s.decoded ++ [decode c.charset length i],
                    opened := s.opened ++ [decode c.charset length i],
                    found := true, result := decode c.charset length i } : Shared).publish
            (la + 1) (lc + 1)
        else if (la + 1) % 1000 = 0 then
          workerLoop c stop length fuel (i + 1) (decode c.charset length i) 0 0
            (({ s with decoded := s.decoded ++ [decode c.charset length i],
                       opened := s.opened ++ [decode c.charset length i] } : Shared).publish
              1000 (lc + 1))
        else
          workerLoop c stop length fuel (i + 1) (decode c.charset length i) (la + 1) (lc + 1)
            { s with decoded := s.decoded ++ [decode c.charset length i],
                     opened := s.opened ++ [decode c.charset length i] } := by
  rw [workerLoop, if_pos ⟨hi, hs⟩, decodeLoop_full _ _ _ _ hb]
  simp only [hr, Bool.false_eq_true, if_false]

theorem workerLoop_slow (c : Cracker) (stop length : Nat) (hslow : c.verifier = none) :
    ∀ (fuel i : Nat) (buf : List Nat) (la : Nat) (s : Shared),
      buf.length = length → la < 1000 →
      ∃ ws : List (List Nat),
        (workerLoop c stop length fuel i buf la la s).decoded = s.decoded ++ ws ∧
        (workerLoop c stop length fuel i buf la la s).opened = s.opened ++ ws ∧
        (workerLoop c stop length fuel i buf la la s).attempts
          = (s.attempts + la + ws.length) % 18446744073709551616 ∧
        (workerLoop c stop length fuel i buf la la s).checked
          = (s.checked + la + ws.length) % 18446744073709551616
  | 0, i, buf, la, s, _, _ => by
    refine ⟨[], ?_⟩
    rw [workerLoop, publish_decoded, publish_opened, publish_attempts, publish_checked]
    simp
  | fuel + 1, i, buf, la, s, hb, hla => by
    by_cases hcond : i < stop ∧ s.found = false
    · rw [workerLoop_open_step c stop length fuel i buf la la s hcond.1 hcond.2 hb
        (rejects_of_slow c hslow _)]
      by_cases ht : c.tryPassword (decode c.charset length i) = true
      · rw [if_pos ht, publish_decoded, publish_opened, publish_attempts, publish_checked]
        exact ⟨[decode c.charset length i], rfl, rfl, rfl, rfl⟩
      · rw [if_neg ht]
        by_cases hm : (la + 1) % 1000 = 0
        · rw [if_pos hm]
          obtain ⟨ws, h1, h2, h3, h4⟩ := workerLoop_slow c stop length hslow fuel (i + 1)
            (decode c.charset length i) 0
            (({ s with decoded := s.decoded ++ [decode c.charset length i],
                       opened := s.opened ++ [decode c.charset length i] } : Shared).publish
              1000 (la + 1)) (length_decode _ _ _) (by omega)
          rw [publish_decoded] at h1
          rw [publish_opened] at h2
          rw [publish_attempts] at h3
          rw [publish_checked] at h4
          refine ⟨decode c.charset length i :: ws, ?_, ?_, ?_, ?_⟩
          · rw [h1]
            simp
          · rw [h2]
            simp
          · rw [h3]
            show ((s.attempts + 1000) % 18446744073709551616 + 0 + ws.length)
              % 18446744073709551616 = _
            rw [List.length_cons]
            omega
          · rw [h4]
            show ((s.checked + (la + 1)) % 18446744073709551616 + 0 + ws.length)
              % 18446744073709551616 = _
            rw [List.length_cons]
            omega
        · rw [if_neg hm]
          obtain ⟨ws, h1, h2, h3, h4⟩ := workerLoop_slow c stop length hslow fuel (i + 1)
            (decode c.charset length i) (la + 1)
            { s with decoded := s.decoded ++ [decode c.charset length i],
                     opened := s.opened ++ [decode c.charset length i] }
            (length_decode _ _ _) (by omega)
          refine ⟨decode c.charset length i :: ws, ?_, ?_, ?_, ?_⟩
          · rw [h1]
            simp
          · rw [h2]
            simp
          · rw [h3]
            show (s.attempts + (la + 1) + ws.length) % 18446744073709551616 = _
            rw [List.length_cons]
            congr 1
            omega
          · rw [h4]
            show (s.checked + (la + 1) + ws.length) % 18446744073709551616 = _
            rw [List.length_cons]
            congr 1
            omega
    · refine ⟨[], ?_⟩
      rw [workerLoop_exit c stop length (fuel + 1) i buf la la s hcond, publish_decoded,
        publish_opened, publish_attempts, publish_checked]
      simp

theorem rangeWorker_slow (c : Cracker) (start stop length : Nat) (s : Shared)
    (hslow : c.verifier = none) (hA : s.attempts < 18446744073709551616)
    (hC : s.checked < 18446744073709551616) :
    ∃ ws : List (List Nat),
      (rangeWorker c start stop length s).decoded = s.decoded ++ ws ∧
      (rangeWorker c start stop length s).opened = s.opened ++ ws ∧
      (rangeWorker c start stop length s).attempts
        = (s.attempts + ws.length) % 18446744073709551616 ∧
      (rangeWorker c start stop length s).checked
        = (s.checked + ws.length) % 18446744073709551616 := by
  unfold rangeWorker
  by_cases hctx : c.ctxOk = true
  · rw [if_pos hctx]
    obtain ⟨ws, h1, h2, h3, h4⟩ := workerLoop_slow c stop length hslow (stop - start) start
      (List.replicate length 0) 0 s (by simp) (by omega)
    exact ⟨ws, h1, h2, by rw [h3, Nat.add_zero], by rw [h4, Nat.add_zero]⟩
  · rw [if_neg hctx]
    exact ⟨[], by simp, by simp, by simp [Nat.mod_eq_of_lt hA], by simp [Nat.mod_eq_of_lt hC]⟩

theorem rangeWorker_slow_eq (c : Cracker) (start stop length : Nat) (s : Shared)
    (hslow : c.verifier = none) (h : s.attempts = s.checked) :
    (rangeWorker c start stop length s).attempts = (rangeWorker c start stop length s).checked := by
  unfold rangeWorker
  by_cases hctx : c.ctxOk = true
  · rw [if_pos hctx]
    obtain ⟨ws, _, _, h3, h4⟩ := workerLoop_slow c stop length hslow (stop - start) start
      (List.replicate length 0) 0 s (by simp) (by omega)
    rw [h3, h4, h]
  · rw [if_neg hctx]
    exact h

theorem runWorkers_slow_eq (c : Cracker) (length : Nat) (hslow : c.verifier = none) :
    ∀ (rs : List (Nat × Nat)) (s : Shared), s.attempts = s.checked →
      (runWorkers c length rs s).attempts = (runWorkers c length rs s).checked
  | [], _, h => h
  | r :: rs, s, h => by
    have h1 := rangeWorker_slow_eq c r.1 r.2 length s hslow h
    have h2 := runWorkers_slow_eq c length hslow rs _ h1
    simpa only [runWorkers, List.foldl_cons] using h2

theorem lengthLoop_slow_eq (c : Cracker) (maxLen : Nat) (hslow : c.verifier = none) :
    ∀ (fuel length : Nat) (s : Shared), s.attempts = s.checked →
      (lengthLoop c maxLen fuel length s).attempts = (lengthLoop c maxLen fuel length s).checked
  | 0, _, _, h => by
    rw [lengthLoop]
    exact h
  | fuel + 1, length, s, h => by
    rw [lengthLoop]
    split_ifs with h1 h2
    · exact h
    · simp only []
      have hw := runWorkers_slow_eq c length hslow
        (workerRanges c.workers (calculateTotal c.charset length)) s h
      split_ifs
      · exact hw
      · exact lengthLoop_slow_eq c maxLen hslow fuel (length + 1) _ hw
    · exact h

/-- C12: in the slow path (no Verifier) a worker run hands every candidate it
decodes to `tryPassword`, and adds the number of those candidates both to
`attempts` and to `checked`; hence the two counters are equal after the worker
when they were equal before, and `attempts = checked` when a sweep started on
zero counters ends. -/
theorem slow_path_counters (c : Cracker) (start stop length : Nat) (s : Shared)
    (hslow : c.verifier = none) (hA : s.attempts < 2 ^ 64) (hC : s.checked < 2 ^ 64) :
    (∃ ws : List (List Nat),
      (rangeWorker c start stop length s).decoded = s.decoded ++ ws ∧
      (rangeWorker c start stop length s).opened = s.opened ++ ws ∧
      (rangeWorker c start stop length s).attempts = (s.attempts + ws.length) % 2 ^ 64 ∧
      (rangeWorker c start stop length s).checked = (s.checked + ws.length) % 2 ^ 64) ∧
    (s.attempts = s.checked →
      (rangeWorker c start stop length s).attempts
        = (rangeWorker c start stop length s).checked) ∧
    (∀ minLen maxLen : Nat,
      (lengthSweep c minLen maxLen Shared.init).attempts
        = (lengthSweep c minLen maxLen Shared.init).checked) := by
  have h64 : (2 : Nat) ^ 64 = 18446744073709551616 := by norm_num
  rw [h64] at hA hC ⊢
  exact ⟨rangeWorker_slow c start stop length s hslow hA hC,
    rangeWorker_slow_eq c start stop length s hslow,
    fun minLen maxLen => lengthLoop_slow_eq c maxLen hslow _ minLen Shared.init rfl⟩

/-- Witness for C12: a worker of the two-letter slow-path search on the whole
range of length 2, where it stops at the accepted third candidate. -/
theorem slow_path_counters_witness :
    (sampleCracker.verifier = none ∧ Shared.init.attempts < 2 ^ 64 ∧
      Shared.init.checked < 2 ^ 64) ∧
    (rangeWorker sampleCracker 0 4 2 Shared.init).decoded = [[97, 97], [97, 98], [98, 97]] ∧
    (rangeWorker sampleCracker 0 4 2 Shared.init).opened = [[97, 97], [97, 98], [98, 97]] ∧
    (rangeWorker sampleCracker 0 4 2 Shared.init).attempts = 3 ∧
    (rangeWorker sampleCracker 0 4 2 Shared.init).checked = 3 ∧
    (∀ minLen maxLen : Nat,
      (lengthSweep sampleCracker minLen maxLen Shared.init).attempts
        = (lengthSweep sampleCracker minLen maxLen Shared.init).checked) :=
  ⟨⟨rfl, by decide, by decide⟩, by decide, by decide, by decide, by decide,
    (slow_path_counters sampleCracker 0 4 2 Shared.init rfl (by decide) (by decide)).2.2⟩

/-! ## The counters after every flush -/

theorem workerFlushes_exit (c : Cracker) (stop length fuel i : Nat) (buf : List Nat)
    (la lc : Nat) (s : Shared) (h : ¬ (i < stop ∧ s.found = false)) :
    workerFlushes c stop length fuel i buf la lc s = [s.publish la lc] := by
  cases fuel with
  | zero => rw [workerFlushes]
  | succ fuel => rw [workerFlushes, if_neg h]

theorem workerFlushes_reject_step (c : Cracker) (stop length fuel i : Nat) (buf : List Nat)
    (la lc : Nat) (s : Shared) (hi : i < stop) (hs : s.found = false)
    (hb : buf.length = length) (hr : c.rejects (decode c.charset length i) = true) :
    workerFlushes c stop length (fuel + 1) i buf la lc s
      = if (la + 1) % 1000 = 0 then
          (({ s with decoded := s.decoded ++ [decode c.charset length i] } : Shared).publish
              1000 1000)
            :: workerFlushes c stop length fuel (i + 1) (decode c.charset length i) 0 (lc + 1)
              (({ s with decoded := s.decoded ++ [decode c.charset length i] } : Shared).publish
                1000 1000)
        else
          workerFlushes c stop length fuel (i + 1) (decode c.charset length i) (la + 1) (lc + 1)
            { s with decoded := s.decoded ++ [decode c.charset length i] } := by
  rw [workerFlushes, if_pos ⟨hi, hs⟩, decodeLoop_full _ _ _ _ hb]
  simp only [hr, if_true]

theorem workerFlushes_open_step (c : Cracker) (stop length fuel i : Nat) (buf : List Nat)
    (la lc : Nat) (s : Shared) (hi : i < stop) (hs : s.found = false)
    (hb : buf.length = length) (hr : c.rejects (decode c.charset length i) = false) :
    workerFlushes c stop length (fuel + 1) i buf la lc s
      = if c.tryPassword (decode c.charset length i) = true then
          [({ s with decoded := s.decoded ++ [decode c.charset length i],
                     opened := s.opened ++ [decode c.charset length i],
                     found := true, result := decode c.charset length i } : Shared).publish
            (la + 1) (lc + 1)]
        else if (la + 1) % 1000 = 0 then
          (({ s with decoded := s.decoded ++ [decode c.charset length i],
                     opened := s.opened ++ [decode c.charset length i] } : Shared).publish
              1000 (lc + 1))
            :: workerFlushes c stop length fuel (i + 1) (decode c.charset length i) 0 0
              (({ s with decoded := s.decoded ++ [decode c.charset length i],
                         opened := s.opened ++ [decode c.charset length i] } : Shared).publish
                1000 (lc + 1))
        else
          workerFlushes c stop length fuel (i + 1) (decode c.charset length i) (la + 1) (lc + 1)
            { s with decoded := s.decoded ++ [decode c.charset length i],
                     opened := s.opened ++ [decode c.charset length i] } := by
  rw [workerFlushes, if_pos ⟨hi, hs⟩, decodeLoop_full _ _ _ _ hb]
  simp only [hr, Bool.false_eq_true, if_false]

/-- The worker returns with the state of its last flush. -/
theorem workerLoop_mem_flushes (c : Cracker) (stop length : Nat) :
    ∀ (fuel i : Nat) (buf : List Nat) (la lc : Nat) (s : Shared), buf.length = length →
      workerLoop c stop length fuel i buf la lc s
        ∈ workerFlushes c stop length fuel i buf la lc s
  | 0, i, buf, la, lc, s, _ => by
    rw [workerLoop, workerFlushes]
    exact List.mem_singleton.mpr rfl
  | fuel + 1, i, buf, la, lc, s, hb => by
    have ih := fun la2 lc2 s2 => workerLoop_mem_flushes c stop length fuel (i + 1)
      (decode c.charset length i) la2 lc2 s2 (length_decode _ _ _)
    by_cases hcond : i < stop ∧ s.found = false
    · by_cases hr : c.rejects (decode c.charset length i) = true
      · rw [workerLoop_reject_step c stop length fuel i buf la lc s hcond.1 hcond.2 hb hr,
          workerFlushes_reject_step c stop length fuel i buf la lc s hcond.1 hcond.2 hb hr]
        by_cases hm : (la + 1) % 1000 = 0
        · rw [if_pos hm, if_pos hm]
          exact List.mem_cons_of_mem _ (ih _ _ _)
        · rw [if_neg hm, if_neg hm]
          exact ih _ _ _
      · have hr2 : c.rejects (decode c.charset length i) = false := by simpa using hr
        rw [workerLoop_open_step c stop length fuel i buf la lc s hcond.1 hcond.2 hb hr2,
          workerFlushes_open_step c stop length fuel i buf la lc s hcond.1 hcond.2 hb hr2]
        by_cases ht : c.tryPassword (decode c.charset length i) = true
        · rw [if_pos ht, if_pos ht]
          exact List.mem_singleton.mpr rfl
        · rw [if_neg ht, if_neg ht]
          by_cases hm : (la + 1) % 1000 = 0
          · rw [if_pos hm, if_pos hm]
            exact List.mem_cons_of_mem _ (ih _ _ _)
          · rw [if_neg hm, if_neg hm]
            exact ih _ _ _
    · rw [workerLoop_exit c stop length (fuel + 1) i buf la lc s hcond,
        workerFlushes_exit c stop length (fuel + 1) i buf la lc s hcond]
      exact List.mem_singleton.mpr rfl

theorem publish_counters_of_lt (s : Shared) (a k : Nat)
    (ha : s.attempts + a < 18446744073709551616) (hk : s.checked + k < 18446744073709551616) :
    (s.publish a k).attempts = s.attempts + a ∧ (s.publish a k).checked = s.checked + k := by
  rw [publish_attempts, publish_checked]
  exact ⟨Nat.mod_eq_of_lt ha, Nat.mod_eq_of_lt hk⟩

/-- The invariant of the worker loop while no 64-bit counter wraps: after every
flush `attempts ≤ checked`, and `checked` stays within the budget
`checked + localChecked + localAttempts + 2 * (end - i)`. -/
theorem workerFlushes_inv (c : Cracker) (stop length : Nat) :
    ∀ (fuel i : Nat) (buf : List Nat) (la lc : Nat) (s : Shared), buf.length = length →
      s.attempts ≤ s.checked → s.attempts + la ≤ s.checked + lc → la < 1000 →
      s.checked + lc + la + 2 * (stop - i) < 18446744073709551616 →
      ∀ t ∈ workerFlushes c stop length fuel i buf la lc s,
        t.attempts ≤ t.checked ∧ t.checked ≤ s.checked + lc + la + 2 * (stop - i)
  | 0, i, buf, la, lc, s, _, h1, h2, h3, h4, t, ht => by
    rw [workerFlushes, List.mem_singleton] at ht
    obtain ⟨ha, hc⟩ := publish_counters_of_lt s la lc (by omega) (by omega)
    rw [ht, ha, hc]
    omega
  | fuel + 1, i, buf, la, lc, s, hb, h1, h2, h3, h4, t, ht => by
    have ih := fun la2 lc2 s2 => workerFlushes_inv c stop length fuel (i + 1)
      (decode c.charset length i) la2 lc2 s2 (length_decode _ _ _)
    by_cases hcond : i < stop ∧ s.found = false
    · have hi := hcond.1
      by_cases hr : c.rejects (decode c.charset length i) = true
      · rw [workerFlushes_reject_step c stop length fuel i buf la lc s hcond.1 hcond.2 hb hr]
          at ht
        by_cases hm : (la + 1) % 1000 = 0
        · rw [if_pos hm] at ht
          generalize hs1 : ({ s with decoded := s.decoded ++ [decode c.charset length i] } :
            Shared) = s1 at ht
          have e1 : s1.attempts = s.attempts := by rw [← hs1]
          have e2 : s1.checked = s.checked := by rw [← hs1]
          obtain ⟨ha, hc⟩ := publish_counters_of_lt s1 1000 1000 (by omega) (by omega)
          rcases List.mem_cons.mp ht with ht | ht
          · rw [ht, ha, hc]
            omega
          · have := ih 0 (lc + 1) _ (by rw [ha, hc]; omega) (by rw [ha, hc]; omega)
              (by omega) (by rw [hc]; omega) t ht
            rw [hc] at this
            omega
        · rw [if_neg hm] at ht
          generalize hs1 : ({ s with decoded := s.decoded ++ [decode c.charset length i] } :
            Shared) = s1 at ht
          have e1 : s1.attempts = s.attempts := by rw [← hs1]
          have e2 : s1.checked = s.checked := by rw [← hs1]
          have := ih (la + 1) (lc + 1) s1 (by omega) (by omega) (by omega) (by omega) t ht
          omega
      · have hr2 : c.rejects (decode c.charset length i) = false := by simpa using hr
        rw [workerFlushes_open_step c stop length fuel i buf la lc s hcond.1 hcond.2 hb hr2]
          at ht
        by_cases htry : c.tryPassword (decode c.charset length i) = true
        · rw [if_pos htry, List.mem_singleton] at ht
          generalize hs1 : ({ s with
            decoded := s.decoded ++ [decode c.charset length i],
            opened := s.opened ++ [decode c.charset length i],
            found := true,
            result := decode c.charset length i } : Shared) = s1 at ht
          have e1 : s1.attempts = s.attempts := by rw [← hs1]
          have e2 : s1.checked = s.checked := by rw [← hs1]
          obtain ⟨ha, hc⟩ := publish_counters_of_lt s1 (la + 1) (lc + 1) (by omega) (by omega)
          rw [ht, ha, hc]
          omega
        · rw [if_neg htry] at ht
          generalize hs1 : ({ s with
            decoded := s.decoded ++ [decode c.charset length i],
            opened := s.opened ++ [decode c.charset length i] } : Shared) = s1 at ht
          have e1 : s1.attempts = s.attempts := by rw [← hs1]
          have e2 : s1.checked = s.checked := by rw [← hs1]
          by_cases hm : (la + 1) % 1000 = 0
          · rw [if_pos hm] at ht
            obtain ⟨ha, hc⟩ := publish_counters_of_lt s1 1000 (lc + 1) (by omega) (by omega)
            rcases List.mem_cons.mp ht with ht | ht
            · rw [ht, ha, hc]
              omega
            · have := ih 0 0 _ (by rw [ha, hc]; omega) (by rw [ha, hc]; omega)
                (by omega) (by rw [hc]; omega) t ht
              rw [hc] at this
              omega
          · rw [if_neg hm] at ht
            have := ih (la + 1) (lc + 1) s1 (by omega) (by omega) (by omega) (by omega) t ht
            omega
    · rw [workerFlushes_exit c stop length (fuel + 1) i buf la lc s hcond,
        List.mem_singleton] at ht
      obtain ⟨ha, hc⟩ := publish_counters_of_lt s la lc (by omega) (by omega)
      rw [ht, ha, hc]
      omega

theorem rangeWorkerFlushes_inv (c : Cracker) (start stop length : Nat) (s : Shared)
    (h1 : s.attempts ≤ s.checked)
    (h2 : s.checked + 2 * (stop - start) < 18446744073709551616) :
    (∀ t ∈ rangeWorkerFlushes c start stop length s,
      t.attempts ≤ t.checked ∧ t.checked ≤ s.checked + 2 * (stop - start)) ∧
    (rangeWorker c start stop length s).attempts ≤ (rangeWorker c start stop length s).checked ∧
    (rangeWorker c start stop length s).checked ≤ s.checked + 2 * (stop - start) := by
  have hinv := workerFlushes_inv c stop length (stop - start) start (List.replicate length 0)
    0 0 s (by simp) h1 (by omega) (by omega) (by omega)
  unfold rangeWorkerFlushes rangeWorker
  by_cases hctx : c.ctxOk = true
  · rw [if_pos hctx, if_pos hctx]
    have hlast := hinv _ (workerLoop_mem_flushes c stop length (stop - start) start
      (List.replicate length 0) 0 0 s (by simp))
    refine ⟨fun t ht => ?_, hlast.1, ?_⟩
    · have := hinv t ht
      omega
    · omega
  · rw [if_neg hctx, if_neg hctx]
    refine ⟨fun t ht => ?_, h1, by omega⟩
    simp at ht

theorem sequenceFlushes_inv (c : Cracker) :
    ∀ (runs : List (Nat × Nat × Nat)) (s : Shared), s.attempts ≤ s.checked →
      s.checked + 2 * (runs.map (fun r => r.2.1 - r.1)).sum < 18446744073709551616 →
      (∀ t ∈ sequenceFlushes c runs s, t.attempts ≤ t.checked) ∧
      (runSequence c runs s).attempts ≤ (runSequence c runs s).checked
  | [], s, h1, _ => by
    refine ⟨fun t ht => ?_, h1⟩
    simp [sequenceFlushes] at ht
  | r :: rs, s, h1, h2 => by
    simp only [List.map_cons, List.sum_cons] at h2
    have hw := rangeWorkerFlushes_inv c r.1 r.2.1 r.2.2 s h1 (by omega)
    have ih := sequenceFlushes_inv c rs (rangeWorker c r.1 r.2.1 r.2.2 s) hw.2.1 (by omega)
    refine ⟨fun t ht => ?_, ?_⟩
    · rw [sequenceFlushes, List.mem_append] at ht
      rcases ht with ht | ht
      · exact (hw.1 t ht).1
      · exact ih.1 t ht
    · simpa only [runSequence, List.foldl_cons] using ih.2

theorem runSequence_single (c : Cracker) (a b L : Nat) (s : Shared) :
    runSequence c [(a, b, L)] s = rangeWorker c a b L s := rfl

/-- C11, counterexample: the single worker that `crack` launches for the ten
digits at length 26 gets the range `[0, 10^26 mod 2^64)`; when the Verifier
rejects every candidate it returns with `attempts = 15908979783594147840` and
`checked` wrapped around `2^64` to the smaller `13371215493478743224`. -/
theorem attempts_exceeds_checked_after_wrap :
    workerRanges digitsFastCracker.workers (calculateTotal digitsFastCracker.charset 26)
      = [(0, 15908979783594147840)] ∧
    Shared.init.attempts = 0 ∧ Shared.init.checked = 0 ∧
    (runSequence digitsFastCracker [(0, 15908979783594147840, 26)] Shared.init).attempts
      = 15908979783594147840 ∧
    (runSequence digitsFastCracker [(0, 15908979783594147840, 26)] Shared.init).checked
      = 13371215493478743224 ∧
    ¬ ((runSequence digitsFastCracker [(0, 15908979783594147840, 26)] Shared.init).attempts
      ≤ (runSequence digitsFastCracker [(0, 15908979783594147840, 26)] Shared.init).checked) := by
  have hw := rangeWorker_reject digitsFastCracker 0 15908979783594147840 26 Shared.init rfl rfl
    (fun j _ _ => digitsFastCracker_rejects _)
  have hrun : runSequence digitsFastCracker [(0, 15908979783594147840, 26)] Shared.init
      = rangeWorker digitsFastCracker 0 15908979783594147840 26 Shared.init :=
    runSequence_single _ _ _ _ _
  have ha : (rangeWorker digitsFastCracker 0 15908979783594147840 26 Shared.init).attempts
      = 15908979783594147840 := by
    rw [hw.2.1]
    rfl
  have hc : (rangeWorker digitsFastCracker 0 15908979783594147840 26 Shared.init).checked
      = 13371215493478743224 := by
    rw [hw.2.2.1]
    rfl
  refine ⟨by decide, rfl, rfl, ?_, ?_, ?_⟩
  · rw [hrun, ha]
  · rw [hrun, hc]
  · rw [hrun, ha, hc]
    decide

/-- C11, amended: for every sequence of worker runs (any ranges, Verifier and
Adapter outcomes, fast or slow path) whose ranges hold fewer than `2^63` indices
in total, so that no 64-bit counter wraps, starting from
`attempts = checked = 0`: `attempts ≤ checked` after every flush and when all
workers have returned. -/
theorem attempts_le_checked (c : Cracker) (runs : List (Nat × Nat × Nat)) (s : Shared)
    (hA : s.attempts = 0) (hC : s.checked = 0)
    (hfit : 2 * (runs.map (fun r => r.2.1 - r.1)).sum < 2 ^ 64) :
    (∀ t ∈ sequenceFlushes c runs s, t.attempts ≤ t.checked) ∧
    (runSequence c runs s).attempts ≤ (runSequence c runs s).checked := by
  have h64 : (2 : Nat) ^ 64 = 18446744073709551616 := by norm_num
  rw [h64] at hfit
  exact sequenceFlushes_inv c runs s (by omega) (by omega)

/-- Witness for the amended C11: the fast-path digits search run on the whole
ranges of lengths 1 and 2. -/
theorem attempts_le_checked_witness :
    (Shared.init.attempts = 0 ∧ Shared.init.checked = 0 ∧
      2 * (([(0, 10, 1), (0, 100, 2)] : List (Nat × Nat × Nat)).map
        (fun r => r.2.1 - r.1)).sum < 2 ^ 64) ∧
    ((∀ t ∈ sequenceFlushes digitsFastCracker [(0, 10, 1), (0, 100, 2)] Shared.init,
      t.attempts ≤ t.checked) ∧
    (runSequence digitsFastCracker [(0, 10, 1), (0, 100, 2)] Shared.init).attempts
      ≤ (runSequence digitsFastCracker [(0, 10, 1), (0, 100, 2)] Shared.init).checked) :=
  ⟨⟨rfl, rfl, by decide⟩,
    attempts_le_checked digitsFastCracker [(0, 10, 1), (0, 100, 2)] Shared.init rfl rfl
      (by decide)⟩

/-! ## The found flag and the result slot under every interleaving -/

/-- C19, the code on a failing run: a worker stores `found`, the ticker fires
and the Monitor returns, the loop ends and the Coordinator stands at
`stopMonitor <- true`; in that state no event can happen any more, so the send
never completes and the final report is never reached. When the loop ends
before the tick, the send meets the Monitor and the report is reached. -/
theorem stop_send_blocks_forever :
    StopState.run true [StopEvent.workerFinds, StopEvent.tick, StopEvent.loopEnds]
        StopState.init
      = some { crack := CrackPc.atSend, monitor := MonitorPc.returned, found := true } ∧
    (∀ e : StopEvent,
      StopState.step true
        { crack := CrackPc.atSend, monitor := MonitorPc.returned, found := true } e = none) ∧
    StopState.run true [StopEvent.workerFinds, StopEvent.loopEnds, StopEvent.handOver]
        StopState.init
      = some { crack := CrackPc.reported, monitor := MonitorPc.returned, found := true } := by
  refine ⟨by decide, fun e => ?_, by decide⟩
  cases e <;> decide

end ZipBrute
